import Mathlib

/-!
Verification of the infinite-tunnel hero component (src/components/Hero.tsx).

The per-frame camera smoothing, the probabilistic content-placement loops,
the segment-recycling pass, the theme applier, the geometry builder and the
resource lifecycle are embedded as executable Lean definitions over `ℚ`
(standing in for JS numbers), and the spec's claims are settled against them.
-/

namespace Tunnel

/-! ### Configuration constants (Hero.tsx lines 23-35) -/

def TUNNEL_WIDTH : ℚ := 24
def TUNNEL_HEIGHT : ℚ := 16
def SEGMENT_DEPTH : ℚ := 6
def NUM_SEGMENTS : ℕ := 14
def FLOOR_COLS : ℕ := 6
def WALL_ROWS : ℕ := 4

/-! ### Camera Driver (Hero.tsx lines 219-221, 276)

`targetZ = -scrollPos * 0.05; camera.z += (targetZ - camera.z) * 0.1`. -/

/-- One smoothing update of the camera depth toward a target
(`cameraRef.current.position.z += (targetZ - currentZ) * 0.1`). -/
def camStep (currentZ targetZ : ℚ) : ℚ :=
  currentZ + (targetZ - currentZ) * (1 / 10)

/-- The target depth derived from a scroll offset (`-scrollPosRef.current * 0.05`). -/
def camTarget (scrollPos : ℚ) : ℚ :=
  -scrollPos * (5 / 100)

/-- Camera depth after a sequence of frames, one scroll reading per frame,
starting from the initial `camera.position.set(0, 0, 0)`. -/
def camRun (scrolls : List ℚ) : ℚ :=
  scrolls.foldl (fun z s => camStep z (camTarget s)) 0

theorem camStep_sub (z t : ℚ) : t - camStep z t = (9 / 10) * (t - z) := by
  unfold camStep; ring

/-- **C7**: under `currentDepth += (targetDepth - currentDepth) * 0.1` with a
constant target and a start different from the target, each update strictly
decreases the distance to the target and never overshoots: the sign of
`targetDepth - currentDepth` never flips. -/
theorem camStep_closer_no_overshoot (z t : ℚ) (h : z ≠ t) :
    |t - camStep z t| < |t - z| ∧ 0 < (t - camStep z t) * (t - z) := by
  have hne : t - z ≠ 0 := sub_ne_zero.mpr (Ne.symm h)
  constructor
  · rw [camStep_sub, abs_mul]
    have h9 : |(9 : ℚ) / 10| = 9 / 10 := abs_of_pos (by norm_num)
    rw [h9]
    have habs : 0 < |t - z| := abs_pos.mpr hne
    nlinarith
  · rw [camStep_sub]
    have hsq : 0 < (t - z) * (t - z) := mul_self_pos.mpr hne
    nlinarith

/-- Witness for `camStep_closer_no_overshoot` at `currentZ = 5`, `targetZ = -1`. -/
theorem camStep_closer_no_overshoot_witness :
    (5 : ℚ) ≠ -1 ∧
      (|(-1 : ℚ) - camStep 5 (-1)| < |(-1 : ℚ) - 5| ∧
        0 < ((-1 : ℚ) - camStep 5 (-1)) * ((-1 : ℚ) - 5)) :=
  ⟨by norm_num, camStep_closer_no_overshoot 5 (-1) (by norm_num)⟩

theorem camStep_nonpos (z t : ℚ) (hz : z ≤ 0) (ht : t ≤ 0) : camStep z t ≤ 0 := by
  unfold camStep
  nlinarith

/-- **C10**: for every sequence of non-negative scroll offsets, the camera depth
(starting at 0) stays `≤ 0` after every frame update: it never moves in front
of its initial position. -/
theorem camRun_nonpos (scrolls : List ℚ) (h : ∀ s ∈ scrolls, 0 ≤ s) :
    camRun scrolls ≤ 0 := by
  suffices H : ∀ l : List ℚ, (∀ s ∈ l, 0 ≤ s) → ∀ z : ℚ, z ≤ 0 →
      l.foldl (fun z s => camStep z (camTarget s)) z ≤ 0 by
    exact H scrolls h 0 le_rfl
  intro l
  induction l with
  | nil => intro _ z hz; simpa using hz
  | cons s rest ih =>
    intro hl z hz
    simp only [List.foldl_cons]
    refine ih (fun x hx => hl x (List.mem_cons_of_mem _ hx)) _ ?_
    have hs : 0 ≤ s := hl s (List.mem_cons_self _ _)
    refine camStep_nonpos _ _ hz ?_
    unfold camTarget
    nlinarith

/-- Witness for `camRun_nonpos` on the scroll sequence `[0, 120, 30]`. -/
theorem camRun_nonpos_witness :
    (∀ s ∈ [(0 : ℚ), 120, 30], 0 ≤ s) ∧ camRun [(0 : ℚ), 120, 30] ≤ 0 :=
  ⟨by norm_num, camRun_nonpos [0, 120, 30] (by norm_num)⟩

/-! ### Content Placement (Hero.tsx lines 109-177)

Each face loop walks cell indices `0, ..., n-1` with `lastIdx` starting at
`-999`; a cell is eligible when `i > lastIdx + 1`; an eligible cell draws one
uniform sample and is filled when the sample exceeds the threshold
(`Math.random() > 0.80`, ceiling `0.88`).  The random source is a stream
`rnd : ℕ → ℚ`; a draw is consumed only at eligible cells. -/

/-- One face loop of `populateImages` over the remaining cell indices `cells`,
with last filled index `last` and `c` samples drawn so far.  Returns the
filled cell indices in order. -/
def faceGo (thr : ℚ) (rnd : ℕ → ℚ) : List ℕ → ℤ → ℕ → List ℕ
  | [], _, _ => []
  | i :: rest, last, c =>
    if (i : ℤ) > last + 1 then
      if rnd c > thr then i :: faceGo thr rnd rest i (c + 1)
      else faceGo thr rnd rest last (c + 1)
    else faceGo thr rnd rest last c

/-- The filled cell indices of one face with `n` cells (`lastFloorIdx = -999`). -/
def faceFills (thr : ℚ) (rnd : ℕ → ℚ) (n : ℕ) : List ℕ :=
  faceGo thr rnd (List.range n) (-999) 0

/-- Every index filled by `faceGo` lies strictly beyond `last + 1`. -/
theorem faceGo_gt_last (thr : ℚ) (rnd : ℕ → ℚ) :
    ∀ (cells : List ℕ) (last : ℤ) (c : ℕ) (x : ℕ), x ∈ faceGo thr rnd cells last c →
      last + 1 < (x : ℤ) := by
  intro cells
  induction cells with
  | nil => intro last c x hx; simp [faceGo] at hx
  | cons i rest ih =>
    intro last c x hx
    unfold faceGo at hx
    by_cases helig : (i : ℤ) > last + 1
    · rw [if_pos helig] at hx
      by_cases hfill : rnd c > thr
      · rw [if_pos hfill] at hx
        rcases List.mem_cons.mp hx with hx | hx
        · subst hx; exact helig
        · have h2 := ih i (c + 1) x hx
          omega
      · rw [if_neg hfill] at hx
        exact ih last (c + 1) x hx
    · rw [if_neg helig] at hx
      exact ih last c x hx

/-- The fill list of a face loop is pairwise separated: any earlier fill is at
least two below any later fill. -/
theorem faceGo_pairwise (thr : ℚ) (rnd : ℕ → ℚ) :
    ∀ (cells : List ℕ) (last : ℤ) (c : ℕ),
      (faceGo thr rnd cells last c).Pairwise (fun a b => a + 1 < b) := by
  intro cells
  induction cells with
  | nil => intro last c; simp [faceGo]
  | cons i rest ih =>
    intro last c
    unfold faceGo
    by_cases helig : (i : ℤ) > last + 1
    · rw [if_pos helig]
      by_cases hfill : rnd c > thr
      · rw [if_pos hfill]
        refine List.Pairwise.cons ?_ (ih i (c + 1))
        intro x hx
        have h2 := faceGo_gt_last thr rnd rest i (c + 1) x hx
        omega
      · rw [if_neg hfill]; exact ih last (c + 1)
    · rw [if_neg helig]; exact ih last c

/-- **C6**: in any single face loop of `populateImages`, no two filled cell
indices differ by exactly 1 (a cell is filled only strictly beyond the
previously filled index plus one). -/
theorem faceFills_no_adjacent (thr : ℚ) (rnd : ℕ → ℚ) (n : ℕ) (x y : ℕ)
    (hx : x ∈ faceFills thr rnd n) (hy : y ∈ faceFills thr rnd n) (hxy : x ≠ y) :
    x + 1 ≠ y ∧ y + 1 ≠ x := by
  have hp : (faceFills thr rnd n).Pairwise (fun a b => a + 1 < b) :=
    faceGo_pairwise thr rnd (List.range n) (-999) 0
  have hsymm : Symmetric (fun a b : ℕ => a + 1 < b ∨ b + 1 < a) := by
    intro a b h
    exact h.symm
  have h := List.Pairwise.forall hsymm (hp.imp (fun h => Or.inl h)) hx hy hxy
  omega

/-- Witness for `faceFills_no_adjacent`: with a constant sample `0.9` the floor
loop fills `[0, 2, 4]`; the fills `0` and `2` do not differ by one. -/
theorem faceFills_no_adjacent_witness :
    (0 ∈ faceFills (80 / 100) (fun _ => 9 / 10) 6 ∧
        2 ∈ faceFills (80 / 100) (fun _ => 9 / 10) 6 ∧ (0 : ℕ) ≠ 2) ∧
      ((0 : ℕ) + 1 ≠ 2 ∧ (2 : ℕ) + 1 ≠ 0) := by
  have hfills : faceFills (80 / 100) (fun _ => (9 : ℚ) / 10) 6 = [0, 2, 4] := by
    have hr : List.range 6 = [0, 1, 2, 3, 4, 5] := by decide
    norm_num [faceFills, hr, faceGo]
  refine ⟨⟨?_, ?_, by decide⟩,
    faceFills_no_adjacent (80 / 100) (fun _ => 9 / 10) 6 0 2 ?_ ?_ (by decide)⟩ <;>
    simp [hfills]

/-- The fixed random source of the spec's floor-loop scenario: successive draws
`0.1, 0.9, 0.1, 0.9, 0.1, 0.9`. -/
def scenarioDraws : ℕ → ℚ := fun c =>
  [(1 : ℚ) / 10, 9 / 10, 1 / 10, 9 / 10, 1 / 10, 9 / 10].getD c 0

/-- **C3 counterexample**: with `FLOOR_COLS = 6`, threshold `0.80` and draws
`0.1, 0.9, 0.1, 0.9, 0.1, 0.9`, the floor loop does *not* fill exactly
`{0, 2, 4}`: cell 0 is not filled (its draw `0.1` is below the threshold,
since `Math.random() > 0.80` fills) and cell 1 is filled. -/
theorem scenario_fills_ne_claim :
    0 ∉ faceFills (80 / 100) scenarioDraws 6 ∧
      1 ∈ faceFills (80 / 100) scenarioDraws 6 := by
  have hr : List.range 6 = [0, 1, 2, 3, 4, 5] := by decide
  have h : faceFills (80 / 100) scenarioDraws 6 = [1, 4] := by
    norm_num [faceFills, hr, faceGo, scenarioDraws]
  rw [h]
  constructor
  · decide
  · decide

/-- **C3 amended**: under that scenario the filled floor cells are exactly
`[1, 4]`: draws are consumed only at eligible cells, a draw fills when it
exceeds `0.80`, and cells 2 and 5 are skipped by the adjacency gate. -/
theorem scenario_fills_eq : faceFills (80 / 100) scenarioDraws 6 = [1, 4] := by
  have hr : List.range 6 = [0, 1, 2, 3, 4, 5] := by decide
  norm_num [faceFills, hr, faceGo, scenarioDraws]

/-! ### Segment Pool / Recycling Scheduler (Hero.tsx lines 204-211, 228-270)

The pool is the list of segment depth positions in array order.  Each frame,
every segment is visited in array order; `minZ` is accumulated from `0` over
all current positions and `maxZ` from `-999999` (`let minZ = 0; ... let maxZ =
-999999`); a segment with `z > camZ + SEGMENT_DEPTH` moves to `minZ -
SEGMENT_DEPTH`, then (on its updated position) one with `z < camZ -
tunnelLength - SEGMENT_DEPTH`, that is `z < camZ - 90`, moves to `maxZ +
SEGMENT_DEPTH`. -/

/-- `let minZ = 0; segments.forEach(s => minZ = Math.min(minZ, s.position.z))`. -/
def minPos (l : List ℚ) : ℚ := l.foldl min 0

/-- `let maxZ = -999999; segments.forEach(s => maxZ = Math.max(maxZ, s.position.z))`. -/
def maxPos (l : List ℚ) : ℚ := l.foldl max (-999999)

/-- The new position of the segment currently holding `z`, with `done` the
already-visited slots and `rest` the untouched ones: the forward check reads
the full current array `done ++ z :: rest`, and the backward check reads the
array after the (possible) forward move. -/
def slotUpdate (camZ : ℚ) (done : List ℚ) (z : ℚ) (rest : List ℚ) : ℚ :=
  if camZ + 6 < z then
    if minPos (done ++ z :: rest) - 6 < camZ - 90 then
      maxPos (done ++ (minPos (done ++ z :: rest) - 6) :: rest) + 6
    else minPos (done ++ z :: rest) - 6
  else
    if z < camZ - 90 then maxPos (done ++ z :: rest) + 6 else z

/-- The `segmentsRef.current.forEach` recycling pass, visiting slots in array
order: `done` holds the slots already visited this frame. -/
def recyclePass (camZ : ℚ) : List ℚ → List ℚ → List ℚ
  | done, [] => done
  | done, z :: rest => recyclePass camZ (done ++ [slotUpdate camZ done z rest]) rest

/-- One frame of the recycling scheduler at camera depth `camZ`. -/
def frame (camZ : ℚ) (ps : List ℚ) : List ℚ := recyclePass camZ [] ps

/-- The pool after a sequence of per-frame camera depths. -/
def runFrames (camZs : List ℚ) (ps : List ℚ) : List ℚ :=
  camZs.foldl (fun ps c => frame c ps) ps

/-- The initial placement `z = -i * SEGMENT_DEPTH` for `i < NUM_SEGMENTS`. -/
def initPositions : List ℚ := (List.range NUM_SEGMENTS).map (fun i : ℕ => -(i : ℚ) * 6)

/-- The depth multiset of a pool of 14 consecutive multiples of the segment
depth descending from `M`: `{M, M - 6, ..., M - 78}`. -/
def runSet (M : ℚ) : Multiset ℚ := (Multiset.range 14).map (fun i : ℕ => M - 6 * (i : ℚ))

theorem recyclePass_nil (camZ : ℚ) (done : List ℚ) :
    recyclePass camZ done [] = done := rfl

theorem recyclePass_cons (camZ : ℚ) (done : List ℚ) (z : ℚ) (rest : List ℚ) :
    recyclePass camZ done (z :: rest) =
      recyclePass camZ (done ++ [slotUpdate camZ done z rest]) rest := rfl

/-- A slot that triggers neither check keeps its position. -/
theorem slotUpdate_stay (camZ : ℚ) (done : List ℚ) (z : ℚ) (rest : List ℚ)
    (h1 : ¬ camZ + 6 < z) (h2 : ¬ z < camZ - 90) :
    slotUpdate camZ done z rest = z := by
  rw [slotUpdate, if_neg h1, if_neg h2]

/-- A slot past the camera's trailing edge moves to `minZ - SEGMENT_DEPTH`
(when the moved position does not itself trigger the backward check). -/
theorem slotUpdate_fwd (camZ : ℚ) (done : List ℚ) (z : ℚ) (rest : List ℚ)
    (h1 : camZ + 6 < z) (h2 : ¬ minPos (done ++ z :: rest) - 6 < camZ - 90) :
    slotUpdate camZ done z rest = minPos (done ++ z :: rest) - 6 := by
  rw [slotUpdate, if_pos h1, if_neg h2]

/-- A slot behind the visible window moves to `maxZ + SEGMENT_DEPTH`. -/
theorem slotUpdate_bwd (camZ : ℚ) (done : List ℚ) (z : ℚ) (rest : List ℚ)
    (h1 : ¬ camZ + 6 < z) (h2 : z < camZ - 90) :
    slotUpdate camZ done z rest = maxPos (done ++ z :: rest) + 6 := by
  rw [slotUpdate, if_neg h1, if_pos h2]

/-- Concrete evaluation: a frame at camera depth `1000` recycles every segment
backward, one slot at a time through the running `maxZ`. -/
theorem frame_at_1000 :
    frame 1000 [0, -6, -12, -18, -24, -30, -36, -42, -48, -54, -60, -66, -72, -78] =
      [6, 12, 18, 24, 30, 36, 42, 48, 54, 60, 66, 72, 78, 84] := by
  rw [frame]
  iterate 14
    rw [recyclePass_cons, slotUpdate_bwd] <;>
      norm_num [maxPos, max_eq_left, max_eq_right]
  rw [recyclePass_nil]

/-- Concrete evaluation: at camera depth `0` on the pool `[6, 12, ..., 84]`,
slot 0 stays while every later slot recycles forward through `minZ`, which is
capped at `0` by its initialization — leaving a pool with both `6` and `-6`
but no segment at depth `0`. -/
theorem frame_at_0 :
    frame 0 [6, 12, 18, 24, 30, 36, 42, 48, 54, 60, 66, 72, 78, 84] =
      [6, -6, -12, -18, -24, -30, -36, -42, -48, -54, -60, -66, -72, -78] := by
  rw [frame]
  rw [recyclePass_cons, slotUpdate_stay] <;> norm_num
  iterate 13
    rw [recyclePass_cons, slotUpdate_fwd] <;>
      norm_num [minPos, min_eq_left, min_eq_right]
  rw [recyclePass_nil]

theorem initPositions_eval :
    initPositions = [0, -6, -12, -18, -24, -30, -36, -42, -48, -54, -60, -66, -72, -78] := by
  have hr : List.range NUM_SEGMENTS = [0, 1, 2, 3, 4, 5, 6, 7, 8, 9, 10, 11, 12, 13] := by
    decide
  norm_num [initPositions, hr]

/-! Characterization of the running `minZ`/`maxZ` accumulators. -/

theorem foldl_min_le_init (a : ℚ) (l : List ℚ) : l.foldl min a ≤ a := by
  induction l generalizing a with
  | nil => exact le_rfl
  | cons c l ih =>
    simp only [List.foldl_cons]
    exact le_trans (ih (min a c)) (min_le_left a c)

theorem foldl_min_le_mem (a : ℚ) (l : List ℚ) (x : ℚ) (hx : x ∈ l) :
    l.foldl min a ≤ x := by
  induction l generalizing a with
  | nil => cases hx
  | cons c l ih =>
    simp only [List.foldl_cons]
    rcases List.mem_cons.mp hx with rfl | hx
    · exact le_trans (foldl_min_le_init _ _) (min_le_right a x)
    · exact ih (min a c) hx

theorem foldl_min_cases (a : ℚ) (l : List ℚ) :
    l.foldl min a = a ∨ l.foldl min a ∈ l := by
  induction l generalizing a with
  | nil => exact Or.inl rfl
  | cons c l ih =>
    simp only [List.foldl_cons]
    rcases ih (min a c) with h | h
    · rcases min_choice a c with hm | hm
      · exact Or.inl (h.trans hm)
      · exact Or.inr (List.mem_cons.mpr (Or.inl (h.trans hm)))
    · exact Or.inr (List.mem_cons.mpr (Or.inr h))

/-- `minPos` computes the least position whenever it is `≤ 0` (the accumulator
starts at `0`). -/
theorem minPos_eq (l : List ℚ) (b : ℚ) (hb : b ∈ l) (hle : ∀ x ∈ l, b ≤ x)
    (h0 : b ≤ 0) : minPos l = b := by
  refine le_antisymm (foldl_min_le_mem 0 l b hb) ?_
  rcases foldl_min_cases 0 l with h | h
  · rw [minPos, h]; exact h0
  · exact hle _ h

theorem foldl_max_init_le (a : ℚ) (l : List ℚ) : a ≤ l.foldl max a := by
  induction l generalizing a with
  | nil => exact le_rfl
  | cons c l ih =>
    simp only [List.foldl_cons]
    exact le_trans (le_max_left a c) (ih (max a c))

theorem foldl_max_mem_le (a : ℚ) (l : List ℚ) (x : ℚ) (hx : x ∈ l) :
    x ≤ l.foldl max a := by
  induction l generalizing a with
  | nil => cases hx
  | cons c l ih =>
    simp only [List.foldl_cons]
    rcases List.mem_cons.mp hx with rfl | hx
    · exact le_trans (le_max_right a x) (foldl_max_init_le _ _)
    · exact ih (max a c) hx

theorem foldl_max_cases (a : ℚ) (l : List ℚ) :
    l.foldl max a = a ∨ l.foldl max a ∈ l := by
  induction l generalizing a with
  | nil => exact Or.inl rfl
  | cons c l ih =>
    simp only [List.foldl_cons]
    rcases ih (max a c) with h | h
    · rcases max_choice a c with hm | hm
      · exact Or.inl (h.trans hm)
      · exact Or.inr (List.mem_cons.mpr (Or.inl (h.trans hm)))
    · exact Or.inr (List.mem_cons.mpr (Or.inr h))

/-- `maxPos` computes the greatest position whenever it is `≥ -999999` (the
accumulator starts at `-999999`). -/
theorem maxPos_eq (l : List ℚ) (b : ℚ) (hb : b ∈ l) (hle : ∀ x ∈ l, x ≤ b)
    (h0 : -999999 ≤ b) : maxPos l = b := by
  refine le_antisymm ?_ (foldl_max_mem_le (-999999) l b hb)
  rcases foldl_max_cases (-999999) l with h | h
  · rw [maxPos, h]; linarith
  · exact hle _ h

/-! Facts about the contiguous-run multiset `runSet`. -/

theorem mem_runSet {x M : ℚ} :
    x ∈ runSet M ↔ ∃ i : ℕ, i < 14 ∧ x = M - 6 * i := by
  rw [runSet]
  constructor
  · intro h
    obtain ⟨i, hi, hieq⟩ := Multiset.mem_map.mp h
    exact ⟨i, Multiset.mem_range.mp hi, hieq.symm⟩
  · rintro ⟨i, hi, rfl⟩
    exact Multiset.mem_map.mpr ⟨i, Multiset.mem_range.mpr hi, rfl⟩

theorem runSet_bounds {x M : ℚ} (h : x ∈ runSet M) : M - 78 ≤ x ∧ x ≤ M := by
  obtain ⟨i, hi, rfl⟩ := mem_runSet.mp h
  have : (i : ℚ) ≤ 13 := by exact_mod_cast Nat.le_of_lt_succ hi
  have : (0 : ℚ) ≤ i := Nat.cast_nonneg i
  constructor <;> linarith

theorem runSet_nodup (M : ℚ) : (runSet M).Nodup := by
  rw [runSet]
  refine Multiset.Nodup.map ?_ (Multiset.nodup_range 14)
  intro i j hij
  have hij' : M - 6 * (i : ℚ) = M - 6 * (j : ℚ) := hij
  have : (i : ℚ) = j := by linarith
  exact_mod_cast this

theorem runSet_card (M : ℚ) : Multiset.card (runSet M) = 14 := by
  rw [runSet, Multiset.card_map, Multiset.card_range]

theorem count_runSet_le_one (M x : ℚ) : Multiset.count x (runSet M) ≤ 1 :=
  (Multiset.nodup_iff_count_le_one.mp (runSet_nodup M)) x

/-- The positions appended, in order, by the forward recycles of one frame:
the `r`-th forward move lands at `M - 84 - 6r`. -/
def tailF (M : ℚ) (s : ℕ) : Multiset ℚ :=
  (Multiset.range s).map (fun r : ℕ => M - 84 - 6 * (r : ℚ))

/-- The positions appended, in order, by the backward recycles of one frame:
the `r`-th backward move lands at `M + 6 + 6r`. -/
def tailB (M : ℚ) (s : ℕ) : Multiset ℚ :=
  (Multiset.range s).map (fun r : ℕ => M + 6 + 6 * (r : ℚ))

theorem tailF_zero (M : ℚ) : tailF M 0 = 0 := rfl

theorem tailB_zero (M : ℚ) : tailB M 0 = 0 := rfl

theorem mem_tailF {x M : ℚ} {s : ℕ} :
    x ∈ tailF M s ↔ ∃ r : ℕ, r < s ∧ x = M - 84 - 6 * r := by
  rw [tailF]
  constructor
  · intro h
    obtain ⟨r, hr, hreq⟩ := Multiset.mem_map.mp h
    exact ⟨r, Multiset.mem_range.mp hr, hreq.symm⟩
  · rintro ⟨r, hr, rfl⟩
    exact Multiset.mem_map.mpr ⟨r, Multiset.mem_range.mpr hr, rfl⟩

theorem mem_tailB {x M : ℚ} {s : ℕ} :
    x ∈ tailB M s ↔ ∃ r : ℕ, r < s ∧ x = M + 6 + 6 * r := by
  rw [tailB]
  constructor
  · intro h
    obtain ⟨r, hr, hreq⟩ := Multiset.mem_map.mp h
    exact ⟨r, Multiset.mem_range.mp hr, hreq.symm⟩
  · rintro ⟨r, hr, rfl⟩
    exact Multiset.mem_map.mpr ⟨r, Multiset.mem_range.mpr hr, rfl⟩

theorem tailF_succ (M : ℚ) (s : ℕ) :
    tailF M (s + 1) = (M - 84 - 6 * s) ::ₘ tailF M s := by
  rw [tailF, tailF, Multiset.range_succ, Multiset.map_cons]

theorem tailB_succ (M : ℚ) (s : ℕ) :
    tailB M (s + 1) = (M + 6 + 6 * s) ::ₘ tailB M s := by
  rw [tailB, tailB, Multiset.range_succ, Multiset.map_cons]

/-- Splitting point of a downward-closed predicate on `[0, n)`. -/
theorem pred_range_split (p : ℕ → Prop) (n : ℕ)
    (hdc : ∀ i j : ℕ, i ≤ j → p j → p i) :
    ∃ k : ℕ, k ≤ n ∧ (∀ i : ℕ, i < k → p i) ∧ (∀ i : ℕ, k ≤ i → i < n → ¬ p i) := by
  induction n with
  | zero => exact ⟨0, le_rfl, fun i hi => absurd hi (Nat.not_lt_zero i), fun i _ hi => absurd hi (Nat.not_lt_zero i)⟩
  | succ n ih =>
    obtain ⟨k, hk, h1, h2⟩ := ih
    by_cases hp : p n
    · exact ⟨n + 1, le_rfl, fun i hi => hdc i n (by omega) hp, fun i h1 h2 => by omega⟩
    · refine ⟨k, by omega, h1, fun i hki hin => ?_⟩
      rcases Nat.lt_or_ge i n with h | h
      · exact h2 i hki h
      · have : i = n := by omega
        subst this
        exact hp

/-- A duplicate-free sub-multiset of `range n` with more than `s` elements
contains an element `≥ s`. -/
theorem range_sub_pigeonhole (U : Multiset ℕ) (n s : ℕ)
    (hU : U ≤ Multiset.range n) (hc : s + 1 ≤ Multiset.card U) :
    ∃ i ∈ U, s ≤ i := by
  by_contra hcon
  push_neg at hcon
  have hnd : U.Nodup := Multiset.nodup_of_le hU (Multiset.nodup_range n)
  have hsub : U ⊆ Multiset.range s := by
    intro i hi
    exact Multiset.mem_range.mpr (hcon i hi)
  have hle : U ≤ Multiset.range s := (Multiset.le_iff_subset hnd).mpr hsub
  have := Multiset.card_le_card hle
  rw [Multiset.card_range] at this
  omega

/-- Reversal invariance of `range` under `r ↦ n - 1 - r`. -/
theorem range_reflect (n : ℕ) :
    (Multiset.range n).map (fun r => n - 1 - r) = Multiset.range n := by
  induction n with
  | zero => rfl
  | succ n ih =>
    have hstep : (Multiset.range (n + 1)).map (fun r => n + 1 - 1 - r) =
        (Multiset.range (n + 1)).map (fun r => n - r) := by
      refine Multiset.map_congr rfl ?_
      intro r _
      omega
    rw [hstep, Multiset.range_succ, Multiset.map_cons, Nat.sub_self]
    have hcast : (Multiset.range n).map (fun r => n - r) =
        (Multiset.range n).map (fun r => (n - 1 - r) + 1) := by
      refine Multiset.map_congr rfl ?_
      intro r hr
      rw [Multiset.mem_range] at hr
      omega
    have hmm : (Multiset.range n).map (fun r => (n - 1 - r) + 1) =
        ((Multiset.range n).map (fun r => n - 1 - r)).map (fun x => x + 1) := by
      rw [Multiset.map_map]
      rfl
    rw [hcast, hmm, ih]
    have hA : Multiset.range (n + 1) = 0 ::ₘ (Multiset.range n).map (fun x => x + 1) := by
      rw [← Multiset.coe_range, ← Multiset.coe_range, List.range_succ_eq_map,
        Multiset.map_coe]
      simp [Nat.succ_eq_add_one]
    rw [← hA]
    exact Multiset.range_succ n

theorem coe_append_cons (done rest : List ℚ) (z : ℚ) :
    (↑(done ++ z :: rest) : Multiset ℚ) = {z} + (↑(done ++ rest) : Multiset ℚ) := by
  rw [← Multiset.coe_add, ← Multiset.coe_add, ← Multiset.cons_coe,
    ← Multiset.singleton_add]
  rw [add_left_comm]

theorem coe_append_append (done rest : List ℚ) (v : ℚ) :
    (↑((done ++ [v]) ++ rest) : Multiset ℚ) = {v} + (↑(done ++ rest) : Multiset ℚ) := by
  rw [← Multiset.coe_add, ← Multiset.coe_add, ← Multiset.coe_add,
    Multiset.coe_singleton]
  rw [add_right_comm, add_comm]

/-- Mid-frame invariant of a forward-recycling frame at camera depth `camZ` on
a pool that began the frame as the run below `M`: `rep` collects the original
positions already replaced, the current array `done ++ rest` plus `rep` is the
original run plus the new far-end tail, every visited slot holds either an
untouched position at or behind the forward threshold or a tail position, and
every unvisited slot holds an original run position. -/
def PhiF (M camZ : ℚ) (done rest : List ℚ) : Prop :=
  ∃ rep : Multiset ℚ,
    rep ≤ runSet M ∧
    (∀ x ∈ rep, camZ + 6 < x) ∧
    ((↑(done ++ rest) : Multiset ℚ) + rep = runSet M + tailF M (Multiset.card rep)) ∧
    (∀ x ∈ done, x ≤ camZ + 6 ∨ x ≤ M - 84) ∧
    (∀ x ∈ rest, x ∈ runSet M)

theorem PhiF_step (M camZ : ℚ) (hM0 : M ≤ 0) (hcam : camZ < M - 6)
    (done : List ℚ) (z : ℚ) (rest : List ℚ) (h : PhiF M camZ done (z :: rest)) :
    PhiF M camZ (done ++ [slotUpdate camZ done z rest]) rest := by
  obtain ⟨rep, hsub, hgt, heq, hdone, hrest⟩ := h
  have hz : z ∈ runSet M := hrest z (List.mem_cons_self z rest)
  obtain ⟨hzl, hzu⟩ := runSet_bounds hz
  by_cases hfire : camZ + 6 < z
  · -- the slot recycles forward to `minZ - 6`
    obtain ⟨s, hs⟩ : ∃ s, Multiset.card rep = s := ⟨_, rfl⟩
    rw [hs] at heq
    have hscast : (0 : ℚ) ≤ (s : ℚ) := Nat.cast_nonneg s
    have hble : ∀ x ∈ done ++ z :: rest, M - 78 - 6 * (s : ℚ) ≤ x := by
      intro x hx
      have hx2 : x ∈ runSet M + tailF M s := by
        rw [← heq]
        exact Multiset.mem_add.mpr (Or.inl (Multiset.mem_coe.mpr hx))
      rcases Multiset.mem_add.mp hx2 with hx3 | hx3
      · have := (runSet_bounds hx3).1
        linarith
      · obtain ⟨r, hr, rfl⟩ := mem_tailF.mp hx3
        have hr' : (r : ℚ) + 1 ≤ (s : ℚ) := by exact_mod_cast hr
        linarith
    have hbmem : M - 78 - 6 * (s : ℚ) ∈ done ++ z :: rest := by
      rcases Nat.eq_zero_or_pos s with hs0 | hs1
      · have hrep0 : rep = 0 := Multiset.card_eq_zero.mp (hs.trans hs0)
        subst hs0
        have hcur : (↑(done ++ z :: rest) : Multiset ℚ) = runSet M := by
          have h' := heq
          rw [hrep0, tailF_zero, add_zero, add_zero] at h'
          exact h'
        have : M - 78 - 6 * ((0 : ℕ) : ℚ) ∈ runSet M := by
          refine mem_runSet.mpr ⟨13, by norm_num, ?_⟩
          push_cast
          ring
        rw [← hcur] at this
        exact Multiset.mem_coe.mp this
      · have hbt : M - 78 - 6 * (s : ℚ) ∈ tailF M s := by
          refine mem_tailF.mpr ⟨s - 1, by omega, ?_⟩
          have : ((s - 1 : ℕ) : ℚ) = (s : ℚ) - 1 := by
            have : (1 : ℕ) ≤ s := hs1
            push_cast [this]
            ring
          rw [this]
          ring
        have hx2 : M - 78 - 6 * (s : ℚ) ∈
            (↑(done ++ z :: rest) : Multiset ℚ) + rep := by
          rw [heq]
          exact Multiset.mem_add.mpr (Or.inr hbt)
        rcases Multiset.mem_add.mp hx2 with hx3 | hx3
        · exact Multiset.mem_coe.mp hx3
        · exfalso
          have := (runSet_bounds (Multiset.mem_of_le hsub hx3)).1
          have hs1' : (1 : ℚ) ≤ (s : ℚ) := by exact_mod_cast hs1
          linarith
    have hmin : minPos (done ++ z :: rest) = M - 78 - 6 * (s : ℚ) := by
      refine minPos_eq _ _ hbmem hble ?_
      linarith
    -- `z` is still present, so it was not yet replaced
    have hcount : Multiset.count z rep = 0 := by
      by_contra hc
      have hcz : 1 ≤ Multiset.count z rep := Nat.one_le_iff_ne_zero.mpr hc
      have hcur1 : 1 ≤ Multiset.count z (↑(done ++ z :: rest) : Multiset ℚ) :=
        Multiset.count_pos.mpr
          (Multiset.mem_coe.mpr (List.mem_append.mpr (Or.inr (List.mem_cons_self z rest))))
      have htot : Multiset.count z (↑(done ++ z :: rest) : Multiset ℚ) +
          Multiset.count z rep =
          Multiset.count z (runSet M) + Multiset.count z (tailF M s) := by
        rw [← Multiset.count_add, ← Multiset.count_add, heq]
      have h1 := count_runSet_le_one M z
      have h2 : Multiset.count z (tailF M s) = 0 := by
        rw [Multiset.count_eq_zero]
        intro hmem
        obtain ⟨r, hr, hreq⟩ := mem_tailF.mp hmem
        have : (0 : ℚ) ≤ r := Nat.cast_nonneg r
        linarith
      omega
    have hTsub : z ::ₘ rep ≤ runSet M := by
      rw [Multiset.le_iff_count]
      intro x
      by_cases hxz : x = z
      · subst hxz
        rw [Multiset.count_cons_self, hcount]
        exact Multiset.count_pos.mpr hz
      · rw [Multiset.count_cons_of_ne hxz]
        exact Multiset.le_iff_count.mp hsub x
    -- pigeonhole: `s + 1` distinct run positions lie above the threshold,
    -- so the index-`s` position does too
    have hMs : camZ + 6 < M - 6 * (s : ℚ) := by
      have hgf : ∀ i : ℕ, i < 14 →
          ((((M - (M - 6 * (i : ℚ))) / 6 : ℚ)).num).toNat = i := by
        intro i _
        have h1 : M - (M - 6 * (i : ℚ)) = 6 * (i : ℚ) := by ring
        rw [h1, mul_div_cancel_left₀ _ (by norm_num : (6 : ℚ) ≠ 0)]
        rw [Rat.num_natCast]
        exact Int.toNat_natCast i
      have hU : (z ::ₘ rep).map (fun x : ℚ => (((M - x) / 6 : ℚ)).num.toNat) ≤
          Multiset.range 14 := by
        have h1 : (z ::ₘ rep).map (fun x : ℚ => (((M - x) / 6 : ℚ)).num.toNat) ≤
            (runSet M).map (fun x : ℚ => (((M - x) / 6 : ℚ)).num.toNat) :=
          Multiset.map_le_map hTsub
        have h2 : (runSet M).map (fun x : ℚ => (((M - x) / 6 : ℚ)).num.toNat) =
            Multiset.range 14 := by
          rw [runSet, Multiset.map_map]
          have hc : ∀ i ∈ Multiset.range 14,
              ((fun x : ℚ => (((M - x) / 6 : ℚ)).num.toNat) ∘
                fun i : ℕ => M - 6 * (i : ℚ)) i = id i := by
            intro i hi
            exact hgf i (Multiset.mem_range.mp hi)
          rw [Multiset.map_congr rfl hc, Multiset.map_id]
        rwa [h2] at h1
      obtain ⟨i, hiU, hsi⟩ := range_sub_pigeonhole _ 14 s hU
        (by rw [Multiset.card_map, Multiset.card_cons, hs])
      obtain ⟨x, hxT, hgx⟩ := Multiset.mem_map.mp hiU
      obtain ⟨j, hj, rfl⟩ := mem_runSet.mp (Multiset.mem_of_le hTsub hxT)
      have hji : j = i := by rw [← hgx, hgf j hj]
      have hxgt : camZ + 6 < M - 6 * (j : ℚ) := by
        rcases Multiset.mem_cons.mp hxT with hxz | hxr
        · rw [hxz]; exact hfire
        · exact hgt _ hxr
      have hsj : (s : ℚ) ≤ (j : ℚ) := by exact_mod_cast hji ▸ hsi
      linarith
    have hnofire2 : ¬ (minPos (done ++ z :: rest) - 6 < camZ - 90) := by
      rw [hmin]
      intro hcon
      linarith
    have hval : slotUpdate camZ done z rest = M - 78 - 6 * (s : ℚ) - 6 :=
      (slotUpdate_fwd camZ done z rest hfire hnofire2).trans (by rw [hmin])
    refine ⟨z ::ₘ rep, hTsub, ?_, ?_, ?_, fun x hx => hrest x (List.mem_cons_of_mem z hx)⟩
    · intro x hx
      rcases Multiset.mem_cons.mp hx with rfl | hx
      · exact hfire
      · exact hgt x hx
    · rw [hval, coe_append_append, Multiset.card_cons, hs, tailF_succ]
      have hv : M - 78 - 6 * (s : ℚ) - 6 = M - 84 - 6 * (s : ℚ) := by ring
      rw [hv, ← Multiset.singleton_add (M - 84 - 6 * (s : ℚ)),
        ← Multiset.singleton_add z]
      have heq' : {z} + (↑(done ++ rest) : Multiset ℚ) + rep =
          runSet M + tailF M s := by
        rw [← coe_append_cons]
        exact heq
      calc {M - 84 - 6 * (s : ℚ)} + (↑(done ++ rest) : Multiset ℚ) + ({z} + rep)
          = {M - 84 - 6 * (s : ℚ)} + ({z} + (↑(done ++ rest) : Multiset ℚ) + rep) := by
            abel
        _ = {M - 84 - 6 * (s : ℚ)} + (runSet M + tailF M s) := by rw [heq']
        _ = runSet M + ({M - 84 - 6 * (s : ℚ)} + tailF M s) := by abel
    · intro x hx
      rcases List.mem_append.mp hx with hx | hx
      · exact hdone x hx
      · rw [List.mem_singleton] at hx
        subst hx
        right
        rw [hval]
        linarith
  · -- neither check fires: the slot keeps its position
    have hnb : ¬ (z < camZ - 90) := by
      intro hcon
      linarith
    have hval : slotUpdate camZ done z rest = z := slotUpdate_stay camZ done z rest hfire hnb
    refine ⟨rep, hsub, hgt, ?_, ?_, fun x hx => hrest x (List.mem_cons_of_mem z hx)⟩
    · have hsame : (↑((done ++ [z]) ++ rest) : Multiset ℚ) =
          (↑(done ++ z :: rest) : Multiset ℚ) := by
        rw [coe_append_append, coe_append_cons]
      rw [hval, hsame]
      exact heq
    · intro x hx
      rcases List.mem_append.mp hx with hx | hx
      · exact hdone x hx
      · rw [List.mem_singleton] at hx
        subst hx
        rw [hval]
        exact Or.inl (le_of_not_lt hfire)

theorem PhiF_final (M camZ : ℚ) (done : List ℚ) (h : PhiF M camZ done []) :
    ∃ k : ℕ, k ≤ 14 ∧ (↑done : Multiset ℚ) = runSet (M - 6 * k) ∧
      (k = 0 ∨ camZ < M - 6 * k) := by
  obtain ⟨rep, hsub, hgt, heq, hdone, _⟩ := h
  rw [List.append_nil] at heq
  obtain ⟨k, hk14, hktrue, hkfalse⟩ :=
    pred_range_split (fun i : ℕ => camZ + 6 < M - 6 * (i : ℚ)) 14 (by
      intro i j hij hpj
      have hij' : (i : ℚ) ≤ j := by exact_mod_cast hij
      have hpj' : camZ + 6 < M - 6 * (j : ℚ) := hpj
      show camZ + 6 < M - 6 * (i : ℚ)
      linarith)
  have hrepf : rep = (runSet M).filter (fun x => camZ + 6 < x) := by
    refine Multiset.ext.mpr fun x => ?_
    by_cases hx : camZ + 6 < x
    · rw [Multiset.count_filter_of_pos hx]
      have htot : Multiset.count x (↑done : Multiset ℚ) + Multiset.count x rep =
          Multiset.count x (runSet M) +
            Multiset.count x (tailF M (Multiset.card rep)) := by
        rw [← Multiset.count_add, ← Multiset.count_add, heq]
      by_cases hxrun : x ∈ runSet M
      · obtain ⟨hxl, hxu⟩ := runSet_bounds hxrun
        have htail0 : Multiset.count x (tailF M (Multiset.card rep)) = 0 := by
          rw [Multiset.count_eq_zero]
          intro hmem
          obtain ⟨r, hr, rfl⟩ := mem_tailF.mp hmem
          have : (0 : ℚ) ≤ r := Nat.cast_nonneg r
          linarith
        have hdone0 : Multiset.count x (↑done : Multiset ℚ) = 0 := by
          rw [Multiset.count_eq_zero]
          intro hmem
          rcases hdone x (Multiset.mem_coe.mp hmem) with h1 | h1
          · linarith
          · linarith
        omega
      · have h0 : Multiset.count x (runSet M) = 0 := Multiset.count_eq_zero.mpr hxrun
        have hle := Multiset.le_iff_count.mp hsub x
        omega
    · rw [Multiset.count_filter_of_neg hx]
      exact Multiset.count_eq_zero.mpr (fun hmem => hx (hgt x hmem))
  have hsplit : Multiset.range 14 =
      Multiset.range k + (Multiset.range (14 - k)).map (k + ·) := by
    have h := Multiset.range_add k (14 - k)
    rwa [Nat.add_sub_cancel' hk14] at h
  have hfilter_idx :
      (Multiset.range 14).filter (fun i : ℕ => camZ + 6 < M - 6 * (i : ℚ)) =
        Multiset.range k := by
    rw [hsplit, Multiset.filter_add]
    have hA : (Multiset.range k).filter (fun i : ℕ => camZ + 6 < M - 6 * (i : ℚ)) =
        Multiset.range k :=
      Multiset.filter_eq_self.mpr (fun i hi => hktrue i (Multiset.mem_range.mp hi))
    have hB : ((Multiset.range (14 - k)).map (k + ·)).filter
        (fun i : ℕ => camZ + 6 < M - 6 * (i : ℚ)) = 0 := by
      refine Multiset.filter_eq_nil.mpr ?_
      intro a ha
      obtain ⟨t, ht, rfl⟩ := Multiset.mem_map.mp ha
      rw [Multiset.mem_range] at ht
      exact hkfalse (k + t) (by omega) (by omega)
    rw [hA, hB, add_zero]
  have hrepk : rep = (Multiset.range k).map (fun i : ℕ => M - 6 * (i : ℚ)) := by
    rw [hrepf, runSet, Multiset.filter_map]
    have hcg : (Multiset.range 14).filter
        ((fun x : ℚ => camZ + 6 < x) ∘ fun i : ℕ => M - 6 * (i : ℚ)) =
        (Multiset.range 14).filter (fun i : ℕ => camZ + 6 < M - 6 * (i : ℚ)) := by
      refine Multiset.filter_congr ?_
      intro i _
      exact Iff.rfl
    rw [hcg, hfilter_idx]
  have hsk : Multiset.card rep = k := by
    rw [hrepk, Multiset.card_map, Multiset.card_range]
  refine ⟨k, hk14, ?_, ?_⟩
  · have hnotidx : (Multiset.range 14).filter
        (fun i : ℕ => ¬ (camZ + 6 < M - 6 * (i : ℚ))) =
        (Multiset.range (14 - k)).map (k + ·) := by
      rw [hsplit, Multiset.filter_add]
      have hA : (Multiset.range k).filter
          (fun i : ℕ => ¬ (camZ + 6 < M - 6 * (i : ℚ))) = 0 := by
        refine Multiset.filter_eq_nil.mpr ?_
        intro a ha
        rw [Multiset.mem_range] at ha
        exact not_not_intro (hktrue a ha)
      have hB : ((Multiset.range (14 - k)).map (k + ·)).filter
          (fun i : ℕ => ¬ (camZ + 6 < M - 6 * (i : ℚ))) =
          (Multiset.range (14 - k)).map (k + ·) := by
        refine Multiset.filter_eq_self.mpr ?_
        intro a ha
        obtain ⟨t, ht, rfl⟩ := Multiset.mem_map.mp ha
        rw [Multiset.mem_range] at ht
        exact hkfalse (k + t) (by omega) (by omega)
      rw [hA, hB, zero_add]
    have hnot : (runSet M).filter (fun x => ¬ camZ + 6 < x) =
        ((Multiset.range (14 - k)).map (k + ·)).map (fun i : ℕ => M - 6 * (i : ℚ)) := by
      rw [runSet, Multiset.filter_map]
      have hcg : (Multiset.range 14).filter
          ((fun x : ℚ => ¬ camZ + 6 < x) ∘ fun i : ℕ => M - 6 * (i : ℚ)) =
          (Multiset.range 14).filter (fun i : ℕ => ¬ (camZ + 6 < M - 6 * (i : ℚ))) := by
        refine Multiset.filter_congr ?_
        intro i _
        exact Iff.rfl
      rw [hcg, hnotidx]
    have hdone_eq : (↑done : Multiset ℚ) =
        (runSet M).filter (fun x => ¬ camZ + 6 < x) + tailF M k := by
      have htot := heq
      rw [hsk, hrepf] at htot
      have hfan := Multiset.filter_add_not (fun x => camZ + 6 < x) (runSet M)
      have h2 : (↑done : Multiset ℚ) + (runSet M).filter (fun x => camZ + 6 < x) =
          (runSet M).filter (fun x => ¬ camZ + 6 < x) + tailF M k +
            (runSet M).filter (fun x => camZ + 6 < x) := by
        rw [htot]
        conv_lhs => rw [← hfan]
        abel
      exact add_right_cancel h2
    rw [hdone_eq, hnot, tailF, runSet]
    have hsplit2 : Multiset.range 14 =
        Multiset.range (14 - k) + (Multiset.range k).map ((14 - k) + ·) := by
      have h := Multiset.range_add (14 - k) k
      rwa [Nat.sub_add_cancel hk14] at h
    rw [hsplit2, Multiset.map_add, Multiset.map_map, Multiset.map_map]
    congr 1
    · refine Multiset.map_congr rfl ?_
      intro t ht
      rw [Multiset.mem_range] at ht
      show M - 6 * ((k + t : ℕ) : ℚ) = (M - 6 * (k : ℚ)) - 6 * (t : ℚ)
      push_cast
      ring
    · refine Multiset.map_congr rfl ?_
      intro r hr
      rw [Multiset.mem_range] at hr
      show M - 84 - 6 * (r : ℚ) = (M - 6 * (k : ℚ)) - 6 * (((14 - k) + r : ℕ) : ℚ)
      have hc : (((14 - k) : ℕ) : ℚ) = 14 - (k : ℚ) := by
        push_cast [hk14]
        ring
      push_cast [hc]
      ring
  · rcases Nat.eq_zero_or_pos k with hk0 | hk1
    · exact Or.inl hk0
    · right
      have hlast := hktrue (k - 1) (by omega)
      have hc : ((k - 1 : ℕ) : ℚ) = (k : ℚ) - 1 := by
        push_cast [hk1]
        ring
      simp only [] at hlast
      rw [hc] at hlast
      linarith

theorem PhiF_run (M camZ : ℚ) (hM0 : M ≤ 0) (hcam : camZ < M - 6) :
    ∀ rest done : List ℚ, PhiF M camZ done rest →
      PhiF M camZ (recyclePass camZ done rest) [] := by
  intro rest
  induction rest with
  | nil =>
    intro done h
    rwa [recyclePass_nil]
  | cons z rest ih =>
    intro done h
    rw [recyclePass_cons]
    exact ih _ (PhiF_step M camZ hM0 hcam done z rest h)

/-- Mid-frame invariant of a backward-recycling frame, mirroring `PhiF`: the
`r`-th backward move lands at `M + 6 + 6r` past the current near end. -/
def PhiB (M camZ : ℚ) (done rest : List ℚ) : Prop :=
  ∃ rep : Multiset ℚ,
    rep ≤ runSet M ∧
    (∀ x ∈ rep, x < camZ - 90) ∧
    ((↑(done ++ rest) : Multiset ℚ) + rep = runSet M + tailB M (Multiset.card rep)) ∧
    (∀ x ∈ done, camZ - 90 ≤ x ∨ M + 6 ≤ x) ∧
    (∀ x ∈ rest, x ∈ runSet M)

theorem PhiB_step (M camZ : ℚ) (hMl : -999990 ≤ M) (hcam : M - 6 ≤ camZ)
    (done : List ℚ) (z : ℚ) (rest : List ℚ) (h : PhiB M camZ done (z :: rest)) :
    PhiB M camZ (done ++ [slotUpdate camZ done z rest]) rest := by
  obtain ⟨rep, hsub, hlt, heq, hdone, hrest⟩ := h
  have hz : z ∈ runSet M := hrest z (List.mem_cons_self z rest)
  obtain ⟨hzl, hzu⟩ := runSet_bounds hz
  have hnofwd : ¬ (camZ + 6 < z) := by
    intro hcon
    linarith
  by_cases hfire : z < camZ - 90
  · -- the slot recycles backward to `maxZ + 6`
    obtain ⟨s, hs⟩ : ∃ s, Multiset.card rep = s := ⟨_, rfl⟩
    rw [hs] at heq
    have hscast : (0 : ℚ) ≤ (s : ℚ) := Nat.cast_nonneg s
    have hble : ∀ x ∈ done ++ z :: rest, x ≤ M + 6 * (s : ℚ) := by
      intro x hx
      have hx2 : x ∈ runSet M + tailB M s := by
        rw [← heq]
        exact Multiset.mem_add.mpr (Or.inl (Multiset.mem_coe.mpr hx))
      rcases Multiset.mem_add.mp hx2 with hx3 | hx3
      · have := (runSet_bounds hx3).2
        linarith
      · obtain ⟨r, hr, rfl⟩ := mem_tailB.mp hx3
        have hr' : (r : ℚ) + 1 ≤ (s : ℚ) := by exact_mod_cast hr
        linarith
    have hbmem : M + 6 * (s : ℚ) ∈ done ++ z :: rest := by
      rcases Nat.eq_zero_or_pos s with hs0 | hs1
      · have hrep0 : rep = 0 := Multiset.card_eq_zero.mp (hs.trans hs0)
        subst hs0
        have hcur : (↑(done ++ z :: rest) : Multiset ℚ) = runSet M := by
          have h2 := heq
          rw [hrep0, tailB_zero, add_zero, add_zero] at h2
          exact h2
        have : M + 6 * ((0 : ℕ) : ℚ) ∈ runSet M := by
          refine mem_runSet.mpr ⟨0, by norm_num, ?_⟩
          push_cast
          ring
        rw [← hcur] at this
        exact Multiset.mem_coe.mp this
      · have hbt : M + 6 * (s : ℚ) ∈ tailB M s := by
          refine mem_tailB.mpr ⟨s - 1, by omega, ?_⟩
          have hc : ((s - 1 : ℕ) : ℚ) = (s : ℚ) - 1 := by
            have h1 : (1 : ℕ) ≤ s := hs1
            push_cast [h1]
            ring
          rw [hc]
          ring
        have hx2 : M + 6 * (s : ℚ) ∈
            (↑(done ++ z :: rest) : Multiset ℚ) + rep := by
          rw [heq]
          exact Multiset.mem_add.mpr (Or.inr hbt)
        rcases Multiset.mem_add.mp hx2 with hx3 | hx3
        · exact Multiset.mem_coe.mp hx3
        · exfalso
          have := (runSet_bounds (Multiset.mem_of_le hsub hx3)).2
          have hs1' : (1 : ℚ) ≤ (s : ℚ) := by exact_mod_cast hs1
          linarith
    have hmax : maxPos (done ++ z :: rest) = M + 6 * (s : ℚ) := by
      refine maxPos_eq _ _ hbmem hble ?_
      linarith
    have hcount : Multiset.count z rep = 0 := by
      by_contra hc
      have hcz : 1 ≤ Multiset.count z rep := Nat.one_le_iff_ne_zero.mpr hc
      have hcur1 : 1 ≤ Multiset.count z (↑(done ++ z :: rest) : Multiset ℚ) :=
        Multiset.count_pos.mpr
          (Multiset.mem_coe.mpr (List.mem_append.mpr (Or.inr (List.mem_cons_self z rest))))
      have htot : Multiset.count z (↑(done ++ z :: rest) : Multiset ℚ) +
          Multiset.count z rep =
          Multiset.count z (runSet M) + Multiset.count z (tailB M s) := by
        rw [← Multiset.count_add, ← Multiset.count_add, heq]
      have h1 := count_runSet_le_one M z
      have h2 : Multiset.count z (tailB M s) = 0 := by
        rw [Multiset.count_eq_zero]
        intro hmem
        obtain ⟨r, hr, hreq⟩ := mem_tailB.mp hmem
        have : (0 : ℚ) ≤ r := Nat.cast_nonneg r
        linarith
      omega
    have hTsub : z ::ₘ rep ≤ runSet M := by
      rw [Multiset.le_iff_count]
      intro x
      by_cases hxz : x = z
      · subst hxz
        rw [Multiset.count_cons_self, hcount]
        exact Multiset.count_pos.mpr hz
      · rw [Multiset.count_cons_of_ne hxz]
        exact Multiset.le_iff_count.mp hsub x
    have hval : slotUpdate camZ done z rest = M + 6 * (s : ℚ) + 6 :=
      (slotUpdate_bwd camZ done z rest hnofwd hfire).trans (by rw [hmax])
    refine ⟨z ::ₘ rep, hTsub, ?_, ?_, ?_, fun x hx => hrest x (List.mem_cons_of_mem z hx)⟩
    · intro x hx
      rcases Multiset.mem_cons.mp hx with rfl | hx
      · exact hfire
      · exact hlt x hx
    · rw [hval, coe_append_append, Multiset.card_cons, hs, tailB_succ]
      have hv : M + 6 * (s : ℚ) + 6 = M + 6 + 6 * (s : ℚ) := by ring
      rw [hv, ← Multiset.singleton_add (M + 6 + 6 * (s : ℚ)),
        ← Multiset.singleton_add z]
      have heq2 : {z} + (↑(done ++ rest) : Multiset ℚ) + rep =
          runSet M + tailB M s := by
        rw [← coe_append_cons]
        exact heq
      calc {M + 6 + 6 * (s : ℚ)} + (↑(done ++ rest) : Multiset ℚ) + ({z} + rep)
          = {M + 6 + 6 * (s : ℚ)} + ({z} + (↑(done ++ rest) : Multiset ℚ) + rep) := by
            abel
        _ = {M + 6 + 6 * (s : ℚ)} + (runSet M + tailB M s) := by rw [heq2]
        _ = runSet M + ({M + 6 + 6 * (s : ℚ)} + tailB M s) := by abel
    · intro x hx
      rcases List.mem_append.mp hx with hx | hx
      · exact hdone x hx
      · rw [List.mem_singleton] at hx
        subst hx
        right
        rw [hval]
        linarith
  · -- neither check fires
    have hval : slotUpdate camZ done z rest = z := slotUpdate_stay camZ done z rest hnofwd hfire
    refine ⟨rep, hsub, hlt, ?_, ?_, fun x hx => hrest x (List.mem_cons_of_mem z hx)⟩
    · have hsame : (↑((done ++ [z]) ++ rest) : Multiset ℚ) =
          (↑(done ++ z :: rest) : Multiset ℚ) := by
        rw [coe_append_append, coe_append_cons]
      rw [hval, hsame]
      exact heq
    · intro x hx
      rcases List.mem_append.mp hx with hx | hx
      · exact hdone x hx
      · rw [List.mem_singleton] at hx
        subst hx
        rw [hval]
        exact Or.inl (le_of_not_lt hfire)

theorem PhiB_run (M camZ : ℚ) (hMl : -999990 ≤ M) (hcam : M - 6 ≤ camZ) :
    ∀ rest done : List ℚ, PhiB M camZ done rest →
      PhiB M camZ (recyclePass camZ done rest) [] := by
  intro rest
  induction rest with
  | nil =>
    intro done h
    rwa [recyclePass_nil]
  | cons z rest ih =>
    intro done h
    rw [recyclePass_cons]
    exact ih _ (PhiB_step M camZ hMl hcam done z rest h)

theorem PhiB_final (M camZ : ℚ) (done : List ℚ) (h : PhiB M camZ done []) :
    ∃ k : ℕ, k ≤ 14 ∧ (↑done : Multiset ℚ) = runSet (M + 6 * k) ∧
      (k = 0 ∨ M + 6 * k < camZ - 6) := by
  obtain ⟨rep, hsub, hlt, heq, hdone, _⟩ := h
  rw [List.append_nil] at heq
  obtain ⟨j, hj14, hjtrue, hjfalse⟩ :=
    pred_range_split (fun i : ℕ => ¬ (M - 6 * (i : ℚ) < camZ - 90)) 14 (by
      intro i j hij hpj
      have hij' : (i : ℚ) ≤ j := by exact_mod_cast hij
      have hpj' : ¬ (M - 6 * (j : ℚ) < camZ - 90) := hpj
      show ¬ (M - 6 * (i : ℚ) < camZ - 90)
      intro hcon
      apply hpj'
      linarith)
  have hrepf : rep = (runSet M).filter (fun x => x < camZ - 90) := by
    refine Multiset.ext.mpr fun x => ?_
    by_cases hx : x < camZ - 90
    · rw [Multiset.count_filter, if_pos hx]
      have htot : Multiset.count x (↑done : Multiset ℚ) + Multiset.count x rep =
          Multiset.count x (runSet M) +
            Multiset.count x (tailB M (Multiset.card rep)) := by
        rw [← Multiset.count_add, ← Multiset.count_add, heq]
      by_cases hxrun : x ∈ runSet M
      · obtain ⟨hxl, hxu⟩ := runSet_bounds hxrun
        have htail0 : Multiset.count x (tailB M (Multiset.card rep)) = 0 := by
          rw [Multiset.count_eq_zero]
          intro hmem
          obtain ⟨r, hr, rfl⟩ := mem_tailB.mp hmem
          have : (0 : ℚ) ≤ r := Nat.cast_nonneg r
          linarith
        have hdone0 : Multiset.count x (↑done : Multiset ℚ) = 0 := by
          rw [Multiset.count_eq_zero]
          intro hmem
          rcases hdone x (Multiset.mem_coe.mp hmem) with h1 | h1
          · linarith
          · linarith
        omega
      · have h0 : Multiset.count x (runSet M) = 0 := Multiset.count_eq_zero.mpr hxrun
        have hle := Multiset.le_iff_count.mp hsub x
        omega
    · rw [Multiset.count_filter, if_neg hx]
      exact (Multiset.count_eq_zero.mpr (fun hmem => hx (hlt x hmem)))
  have hsplit : Multiset.range 14 =
      Multiset.range j + (Multiset.range (14 - j)).map (j + ·) := by
    have h := Multiset.range_add j (14 - j)
    rwa [Nat.add_sub_cancel' hj14] at h
  have hfilter_idx :
      (Multiset.range 14).filter (fun i : ℕ => M - 6 * (i : ℚ) < camZ - 90) =
        (Multiset.range (14 - j)).map (j + ·) := by
    rw [hsplit, Multiset.filter_add]
    have hA : (Multiset.range j).filter
        (fun i : ℕ => M - 6 * (i : ℚ) < camZ - 90) = 0 := by
      refine Multiset.filter_eq_nil.mpr ?_
      intro a ha
      rw [Multiset.mem_range] at ha
      exact hjtrue a ha
    have hB : ((Multiset.range (14 - j)).map (j + ·)).filter
        (fun i : ℕ => M - 6 * (i : ℚ) < camZ - 90) =
        (Multiset.range (14 - j)).map (j + ·) := by
      refine Multiset.filter_eq_self.mpr ?_
      intro a ha
      obtain ⟨t, ht, rfl⟩ := Multiset.mem_map.mp ha
      rw [Multiset.mem_range] at ht
      exact not_not.mp (hjfalse (j + t) (by omega) (by omega))
    rw [hA, hB, zero_add]
  have hrepk : rep =
      ((Multiset.range (14 - j)).map (j + ·)).map (fun i : ℕ => M - 6 * (i : ℚ)) := by
    rw [hrepf, runSet, Multiset.filter_map]
    have hcg : (Multiset.range 14).filter
        ((fun x : ℚ => x < camZ - 90) ∘ fun i : ℕ => M - 6 * (i : ℚ)) =
        (Multiset.range 14).filter (fun i : ℕ => M - 6 * (i : ℚ) < camZ - 90) := by
      refine Multiset.filter_congr ?_
      intro i _
      exact Iff.rfl
    rw [hcg, hfilter_idx]
  have hsk : Multiset.card rep = 14 - j := by
    rw [hrepk, Multiset.card_map, Multiset.card_map, Multiset.card_range]
  refine ⟨14 - j, by omega, ?_, ?_⟩
  · have hnotidx : (Multiset.range 14).filter
        (fun i : ℕ => ¬ (M - 6 * (i : ℚ) < camZ - 90)) = Multiset.range j := by
      rw [hsplit, Multiset.filter_add]
      have hA : (Multiset.range j).filter
          (fun i : ℕ => ¬ (M - 6 * (i : ℚ) < camZ - 90)) = Multiset.range j :=
        Multiset.filter_eq_self.mpr (fun i hi => hjtrue i (Multiset.mem_range.mp hi))
      have hB : ((Multiset.range (14 - j)).map (j + ·)).filter
          (fun i : ℕ => ¬ (M - 6 * (i : ℚ) < camZ - 90)) = 0 := by
        refine Multiset.filter_eq_nil.mpr ?_
        intro a ha
        obtain ⟨t, ht, rfl⟩ := Multiset.mem_map.mp ha
        rw [Multiset.mem_range] at ht
        exact not_not_intro (not_not.mp (hjfalse (j + t) (by omega) (by omega)))
      rw [hA, hB, add_zero]
    have hnot : (runSet M).filter (fun x => ¬ x < camZ - 90) =
        (Multiset.range j).map (fun i : ℕ => M - 6 * (i : ℚ)) := by
      rw [runSet, Multiset.filter_map]
      have hcg : (Multiset.range 14).filter
          ((fun x : ℚ => ¬ x < camZ - 90) ∘ fun i : ℕ => M - 6 * (i : ℚ)) =
          (Multiset.range 14).filter (fun i : ℕ => ¬ (M - 6 * (i : ℚ) < camZ - 90)) := by
        refine Multiset.filter_congr ?_
        intro i _
        exact Iff.rfl
      rw [hcg, hnotidx]
    have hdone_eq : (↑done : Multiset ℚ) =
        (runSet M).filter (fun x => ¬ x < camZ - 90) + tailB M (14 - j) := by
      have htot := heq
      rw [hsk, hrepf] at htot
      have hfan := Multiset.filter_add_not (fun x => x < camZ - 90) (runSet M)
      have h2 : (↑done : Multiset ℚ) + (runSet M).filter (fun x => x < camZ - 90) =
          (runSet M).filter (fun x => ¬ x < camZ - 90) + tailB M (14 - j) +
            (runSet M).filter (fun x => x < camZ - 90) := by
        rw [htot]
        conv_lhs => rw [← hfan]
        abel
      exact add_right_cancel h2
    rw [hdone_eq, hnot, tailB, runSet]
    have hsplit2 : Multiset.range 14 =
        Multiset.range (14 - j) + (Multiset.range j).map ((14 - j) + ·) := by
      have h := Multiset.range_add (14 - j) j
      rwa [Nat.sub_add_cancel hj14] at h
    rw [hsplit2, Multiset.map_add, Multiset.map_map]
    have hrefl : (Multiset.range (14 - j)).map
        (fun i : ℕ => (M + 6 * ((14 - j : ℕ) : ℚ)) - 6 * (i : ℚ)) =
        (Multiset.range (14 - j)).map (fun r : ℕ => M + 6 + 6 * (r : ℚ)) := by
      conv_lhs => rw [← range_reflect (14 - j), Multiset.map_map]
      refine Multiset.map_congr rfl ?_
      intro r hr
      rw [Multiset.mem_range] at hr
      show (M + 6 * ((14 - j : ℕ) : ℚ)) - 6 * (((14 - j) - 1 - r : ℕ) : ℚ) =
        M + 6 + 6 * (r : ℚ)
      have h1 : (((14 - j) - 1 - r : ℕ) : ℚ) = ((14 - j : ℕ) : ℚ) - 1 - (r : ℚ) := by
        rw [Nat.sub_sub, Nat.cast_sub (by omega : 1 + r ≤ 14 - j)]
        push_cast
        ring
      rw [h1]
      ring
    rw [hrefl, add_comm ((Multiset.range j).map (fun i : ℕ => M - 6 * (i : ℚ)))
      ((Multiset.range (14 - j)).map (fun r : ℕ => M + 6 + 6 * (r : ℚ)))]
    congr 1
    refine Multiset.map_congr rfl ?_
    intro t ht
    rw [Multiset.mem_range] at ht
    show M - 6 * (t : ℚ) = (M + 6 * ((14 - j : ℕ) : ℚ)) - 6 * (((14 - j) + t : ℕ) : ℚ)
    push_cast
    ring
  · rcases Nat.eq_zero_or_pos (14 - j) with hk0 | hk1
    · exact Or.inl hk0
    · right
      have hq : M - 6 * (j : ℚ) < camZ - 90 :=
        not_not.mp (hjfalse j le_rfl (by omega))
      have hc : ((14 - j : ℕ) : ℚ) = 14 - (j : ℚ) := by
        push_cast [hj14]
        ring
      rw [hc]
      have hj' : (j : ℚ) ≤ 14 := by exact_mod_cast hj14
      linarith

/-- One frame of the recycling pass maps a contiguous run below `M` to a
contiguous run below some `M'`, provided camera depth and run stay inside
`[-999990, 0]` (so that the `minZ = 0` and `maxZ = -999999` accumulator seeds
never mask the true extrema). -/
theorem frame_preserves (M camZ : ℚ) (hMmul : ∃ z : ℤ, M = 6 * z)
    (hMl : -999990 ≤ M) (hMu : M ≤ 0) (hcl : -999990 ≤ camZ) (hcu : camZ ≤ 0)
    (ps : List ℚ) (hps : (↑ps : Multiset ℚ) = runSet M) :
    ∃ M' : ℚ, (∃ z : ℤ, M' = 6 * z) ∧ -999990 ≤ M' ∧ M' ≤ 0 ∧
      (↑(frame camZ ps) : Multiset ℚ) = runSet M' := by
  have hrest : ∀ x ∈ ps, x ∈ runSet M := by
    intro x hx
    rw [← hps]
    exact Multiset.mem_coe.mpr hx
  by_cases hdir : camZ < M - 6
  · have hstart : PhiF M camZ [] ps := by
      refine ⟨0, Multiset.zero_le _, by simp, ?_, by simp, hrest⟩
      rw [List.nil_append, add_zero, Multiset.card_zero, tailF_zero, add_zero]
      exact hps
    have hend := PhiF_run M camZ hMu hdir ps [] hstart
    obtain ⟨k, hk14, hmul, hbound⟩ := PhiF_final M camZ _ hend
    have hkc : (0 : ℚ) ≤ 6 * (k : ℚ) := by positivity
    refine ⟨M - 6 * (k : ℚ), ?_, ?_, by linarith, hmul⟩
    · obtain ⟨z, hz⟩ := hMmul
      refine ⟨z - k, ?_⟩
      rw [hz]
      push_cast
      ring
    · rcases hbound with hk0 | hlt
      · have : ((k : ℕ) : ℚ) = 0 := by exact_mod_cast hk0
        rw [this]
        linarith
      · linarith
  · push_neg at hdir
    have hstart : PhiB M camZ [] ps := by
      refine ⟨0, Multiset.zero_le _, by simp, ?_, by simp, hrest⟩
      rw [List.nil_append, add_zero, Multiset.card_zero, tailB_zero, add_zero]
      exact hps
    have hend := PhiB_run M camZ hMl hdir ps [] hstart
    obtain ⟨k, hk14, hmul, hbound⟩ := PhiB_final M camZ _ hend
    have hkc : (0 : ℚ) ≤ 6 * (k : ℚ) := by positivity
    refine ⟨M + 6 * (k : ℚ), ?_, by linarith, ?_, hmul⟩
    · obtain ⟨z, hz⟩ := hMmul
      refine ⟨z + k, ?_⟩
      rw [hz]
      push_cast
      ring
    · rcases hbound with hk0 | hlt
      · have : ((k : ℕ) : ℚ) = 0 := by exact_mod_cast hk0
        rw [this]
        linarith
      · linarith

theorem initPositions_runSet : (↑initPositions : Multiset ℚ) = runSet 0 := by
  rw [initPositions, ← Multiset.map_coe, Multiset.coe_range, runSet]
  unfold NUM_SEGMENTS
  refine Multiset.map_congr rfl ?_
  intro i _
  ring

/-- **C1 amended**: for every sequence of per-frame camera depths inside
`[-999990, 0]` — as produced by the actual camera driver under any page-sized
scroll input — the pool keeps exactly 14 segments whose depth positions are 14
consecutive multiples of `SEGMENT_DEPTH = 6` descending from some `M ≤ 0`,
starting from the initial placement `0, -6, ..., -78`.  (Unrestricted
camera-depth inputs falsify the original claim, see
`runFrames_breaks_consecutive`; the lower bound keeps the pool above the
`maxZ = -999999` accumulator seed.) -/
theorem pool_run_consecutive (camZs : List ℚ)
    (h : ∀ c ∈ camZs, -999990 ≤ c ∧ c ≤ 0) :
    ∃ M : ℚ, (∃ z : ℤ, M = 6 * z) ∧ -999990 ≤ M ∧ M ≤ 0 ∧
      (↑(runFrames camZs initPositions) : Multiset ℚ) = runSet M ∧
      (runFrames camZs initPositions).length = 14 := by
  suffices H : ∀ l : List ℚ, (∀ c ∈ l, -999990 ≤ c ∧ c ≤ 0) →
      ∀ (ps : List ℚ) (M : ℚ), (∃ z : ℤ, M = 6 * z) → -999990 ≤ M → M ≤ 0 →
      (↑ps : Multiset ℚ) = runSet M →
      ∃ M' : ℚ, (∃ z : ℤ, M' = 6 * z) ∧ -999990 ≤ M' ∧ M' ≤ 0 ∧
        (↑(l.foldl (fun ps c => frame c ps) ps) : Multiset ℚ) = runSet M' by
    obtain ⟨M, hm, h1, h2, h3⟩ :=
      H camZs h initPositions 0 ⟨0, by ring⟩ (by norm_num) le_rfl initPositions_runSet
    refine ⟨M, hm, h1, h2, h3, ?_⟩
    have hcard := congrArg Multiset.card h3
    rw [Multiset.coe_card, runSet_card] at hcard
    exact hcard
  intro l
  induction l with
  | nil =>
    intro _ ps M hm h1 h2 h3
    exact ⟨M, hm, h1, h2, h3⟩
  | cons c rest ih =>
    intro hl ps M hm h1 h2 h3
    simp only [List.foldl_cons]
    obtain ⟨hc1, hc2⟩ := hl c (List.mem_cons_self c rest)
    obtain ⟨M', hm', h1', h2', h3'⟩ := frame_preserves M c hm h1 h2 hc1 hc2 ps h3
    exact ih (fun x hx => hl x (List.mem_cons_of_mem c hx)) (frame c ps) M' hm' h1' h2' h3'

/-- Witness for `pool_run_consecutive` on the camera-depth sequence `[-6]`. -/
theorem pool_run_consecutive_witness :
    (∀ c ∈ [(-6 : ℚ)], -999990 ≤ c ∧ c ≤ 0) ∧
      (∃ M : ℚ, (∃ z : ℤ, M = 6 * z) ∧ -999990 ≤ M ∧ M ≤ 0 ∧
        (↑(runFrames [(-6 : ℚ)] initPositions) : Multiset ℚ) = runSet M ∧
        (runFrames [(-6 : ℚ)] initPositions).length = 14) :=
  ⟨by norm_num, pool_run_consecutive [(-6 : ℚ)] (by norm_num)⟩

/-- **C1 counterexample**: after the camera-depth inputs `1000` then `0`, the
pool's depth positions are no longer 14 consecutive multiples of the segment
depth for any top value `M`: the pool holds depths `6` and `-6` but none at
`0` (the forward recycle computes `minZ` starting from `0`, not from the
actual positions). -/
theorem runFrames_breaks_consecutive :
    ¬ ∃ M : ℚ, (↑(runFrames [1000, 0] initPositions) : Multiset ℚ) = runSet M := by
  have hrun : runFrames [1000, 0] initPositions =
      [6, -6, -12, -18, -24, -30, -36, -42, -48, -54, -60, -66, -72, -78] := by
    rw [runFrames]
    simp only [List.foldl_cons, List.foldl_nil]
    rw [initPositions_eval, frame_at_1000, frame_at_0]
  rintro ⟨M, hM⟩
  rw [hrun, runSet] at hM
  have h6 : (6 : ℚ) ∈ (Multiset.range 14).map (fun i : ℕ => M - 6 * (i : ℚ)) := by
    rw [← hM]
    simp
  have hm6 : (-6 : ℚ) ∈ (Multiset.range 14).map (fun i : ℕ => M - 6 * (i : ℚ)) := by
    rw [← hM]
    simp
  have h0 : (0 : ℚ) ∉ (Multiset.range 14).map (fun i : ℕ => M - 6 * (i : ℚ)) := by
    rw [← hM]
    intro h
    rw [Multiset.mem_coe] at h
    norm_num at h
  obtain ⟨i, hi, hieq⟩ := Multiset.mem_map.mp h6
  obtain ⟨j, hj, hjeq⟩ := Multiset.mem_map.mp hm6
  rw [Multiset.mem_range] at hi hj
  have hij : (j : ℚ) = (i : ℚ) + 2 := by linarith
  have hijn : j = i + 2 := by exact_mod_cast hij
  apply h0
  refine Multiset.mem_map.mpr ⟨i + 1, Multiset.mem_range.mpr (by omega), ?_⟩
  push_cast
  linarith

/-! ### Theme Applier (Hero.tsx lines 296-325, scene setup lines 184-201)

The `useEffect [isDarkMode]` reads the binary flag, then sets the scene
background to a fresh `Color(bgHex)`, sets the fog color only when
`sceneRef.current.fog` exists, and for every segment's `LineSegments` child
sets the line material color and opacity.  Content slabs are `Mesh` children
and are not touched.  Scene creation (`new THREE.Scene()`) never assigns a
fog, and `FOG_DENSITY` is never used. -/

/-- A content slab's mutable material state (opacity and optional texture). -/
structure Slab where
  opacity : ℚ
  texture : Option ℕ
deriving DecidableEq

/-- A segment as the theme applier sees it: one line material plus slabs. -/
structure Segment where
  lineColor : ℕ
  lineOpacity : ℚ
  slabs : List Slab
deriving DecidableEq

/-- The scene state touched by the theme effect.  `background` and `fog` are
absent until assigned; scene creation assigns neither. -/
structure Scene where
  background : Option ℕ
  fog : Option ℕ
  segments : List Segment
deriving DecidableEq

def bgHex (dark : Bool) : ℕ := if dark then 0x050505 else 0xffffff

def fogHex (dark : Bool) : ℕ := if dark then 0x050505 else 0xffffff

def lineHex (dark : Bool) : ℕ := if dark then 0x555555 else 0xb0b0b0

def lineOp (dark : Bool) : ℚ := if dark then 35 / 100 else 50 / 100

/-- The theme effect: set background, set fog color if a fog exists, and set
every segment's line material color and opacity. -/
def applyTheme (dark : Bool) (s : Scene) : Scene :=
  { background := some (bgHex dark)
    fog := match s.fog with
      | some _ => some (fogHex dark)
      | none => none
    segments := s.segments.map (fun seg =>
      { seg with lineColor := lineHex dark, lineOpacity := lineOp dark }) }

/-- `new THREE.Scene()` followed by segment generation: no background and no
fog are ever assigned (`FOG_DENSITY` is unused). -/
def initialScene (segs : List Segment) : Scene :=
  { background := none, fog := none, segments := segs }

/-- A freshly created segment's line material (`color: 0xb0b0b0, opacity: 0.5`). -/
def freshSegment (slabs : List Slab) : Segment :=
  { lineColor := 0xb0b0b0, lineOpacity := 50 / 100, slabs := slabs }

/-- **C5 counterexample**: on the scene as actually built — which never
assigns a fog — applying a theme does *not* set the fog color to the palette
value: there is no fog to color, so the claim's fog clause fails. -/
theorem applyTheme_fog_not_set :
    (initialScene [freshSegment []]).fog = none ∧
      (applyTheme true (initialScene [freshSegment []])).fog ≠ some (fogHex true) := by
  constructor
  · rfl
  · intro h
    simp [applyTheme, initialScene] at h

/-- **C5 amended**: applying a theme flag synchronously sets the scene
background to the palette color and every segment's line color and opacity to
the palette values, leaves every content slab untouched, and recolors the fog
only when one exists — which never happens, because the scene is constructed
without fog. -/
theorem applyTheme_spec (dark : Bool) (s : Scene) :
    (applyTheme dark s).background = some (bgHex dark) ∧
      (applyTheme dark s).segments = s.segments.map (fun seg =>
        { seg with lineColor := lineHex dark, lineOpacity := lineOp dark }) ∧
      (applyTheme dark s).segments.map (fun seg => seg.slabs) =
        s.segments.map (fun seg => seg.slabs) ∧
      (applyTheme dark s).fog = s.fog.map (fun _ => fogHex dark) ∧
      (s.fog = none → (applyTheme dark s).fog = none) ∧
      (∀ segs : List Segment, (initialScene segs).fog = none) := by
  refine ⟨rfl, rfl, ?_, ?_, ?_, fun _ => rfl⟩
  · show (s.segments.map _).map _ = _
    rw [List.map_map]
    rfl
  · cases s with
    | mk bg fog segs => cases fog <;> rfl
  · intro h
    show (match s.fog with | some _ => some (fogHex dark) | none => none) = none
    rw [h]

/-- Witness for `applyTheme_spec` at `dark = true` on the initial one-segment
scene. -/
theorem applyTheme_spec_witness :
    (applyTheme true (initialScene [freshSegment []])).background =
        some (bgHex true) ∧
      (initialScene [freshSegment []]).fog = none ∧
      (applyTheme true (initialScene [freshSegment []])).fog = none :=
  ⟨(applyTheme_spec true (initialScene [freshSegment []])).1, rfl,
    ((applyTheme_spec true (initialScene [freshSegment []])).2.2.2.2.1) rfl⟩

/-- **C8**: applying the same theme flag twice yields scene and material state
identical to applying it once. -/
theorem applyTheme_idem (dark : Bool) (s : Scene) :
    applyTheme dark (applyTheme dark s) = applyTheme dark s := by
  cases s with
  | mk bg fog segs =>
    cases fog <;>
      simp [applyTheme, List.map_map, Function.comp]

/-! ### Resource lifecycle (Hero.tsx lines 56-128, 236-268, 287-292)

GPU/geometry allocations are tracked by sequential identifiers: `alloc` hands
out the next id and marks it live, `dispose` removes an id from the live set.
`createSegment` allocates a line geometry and a line material per segment and
`addImg` allocates a plane geometry, a material, and — once the image load
resolves — a texture per slab. -/

/-- A sequential-id resource allocator with its set of live resources. -/
structure ResState where
  next : ℕ
  live : Finset ℕ
deriving DecidableEq

def alloc (st : ResState) : ℕ × ResState :=
  (st.next, ⟨st.next + 1, insert st.next st.live⟩)

def dispose (i : ℕ) (st : ResState) : ResState :=
  ⟨st.next, st.live.erase i⟩

/-- The resources of one content slab: plane geometry, material, and the
texture when its load has resolved (`mat.map` is set only in the load
callback). -/
structure SlabRes where
  geom : ℕ
  mat : ℕ
  tex : Option ℕ
deriving DecidableEq

/-! ### Teardown (Hero.tsx lines 287-292)

The effect cleanup removes the scroll and resize listeners, cancels the
animation frame, and calls `renderer.dispose()` — nothing else. -/

/-- The mounted component state the cleanup function can touch, together with
the segment resources allocated at initialization. -/
structure AppState where
  loopRunning : Bool
  scrollListener : Bool
  resizeListener : Bool
  rendererLive : Bool
  res : ResState
deriving DecidableEq

/-- `removeEventListener('scroll')`, `removeEventListener('resize')`,
`cancelAnimationFrame(frameId)`, `renderer.dispose()`. -/
def teardown (st : AppState) : AppState :=
  { st with
      scrollListener := false
      resizeListener := false
      loopRunning := false
      rendererLive := false }

/-- A minimal mounted state: one segment's line geometry (id 0) and line
material (id 1) allocated, loop running, listeners attached. -/
def mountedOneSegment : AppState :=
  { loopRunning := true, scrollListener := true, resizeListener := true,
    rendererLive := true,
    res := (alloc (alloc ⟨0, ∅⟩).2).2 }

/-- **C4 counterexample**: after `teardown` runs on a mounted state holding a
segment's line geometry and material, the loop is stopped, both listeners are
detached and the renderer is disposed — but the line geometry (id 0) and line
material (id 1) are still live: the cleanup never disposes segment
geometries, materials or textures. -/
theorem teardown_leaves_resources :
    (teardown mountedOneSegment).loopRunning = false ∧
      (teardown mountedOneSegment).scrollListener = false ∧
      (teardown mountedOneSegment).resizeListener = false ∧
      (teardown mountedOneSegment).rendererLive = false ∧
      (teardown mountedOneSegment).res.live ≠ ∅ ∧
      0 ∈ (teardown mountedOneSegment).res.live ∧
      1 ∈ (teardown mountedOneSegment).res.live := by
  refine ⟨rfl, rfl, rfl, rfl, ?_, ?_, ?_⟩ <;> decide

/-- **C4 amended**: `teardown` stops the render loop, detaches the scroll and
resize listeners, and disposes the renderer, but releases none of the
geometry, material or texture resources allocated for the segments: the live
resource set is unchanged. -/
theorem teardown_spec (st : AppState) :
    (teardown st).loopRunning = false ∧
      (teardown st).scrollListener = false ∧
      (teardown st).resizeListener = false ∧
      (teardown st).rendererLive = false ∧
      (teardown st).res = st.res :=
  ⟨rfl, rfl, rfl, rfl, rfl⟩

/-! ### Geometry Builder (Hero.tsx lines 56-100)

`createSegment` pushes line segments into one vertex array: for `i` in
`[0, FLOOR_COLS]` a floor line and a ceiling line at `x = -w + i*COL_WIDTH`
spanning `z = 0` to `z = -d`; for `i` in `[1, WALL_ROWS - 1]` a left-wall and
a right-wall line at `y = -h + i*ROW_HEIGHT`; then four latitudinal ring lines
at `z = 0`.  Here `COL_WIDTH = 2w / floorCols` and `ROW_HEIGHT = 2h /
wallRows` (the code divides the full tunnel width/height by the division
count). -/

/-- A point of a line-segment vertex pair. -/
structure P3 where
  x : ℚ
  y : ℚ
  z : ℚ
deriving DecidableEq

/-- One line segment of the wireframe (a pair of pushed vertices). -/
structure Line3 where
  a : P3
  b : P3
deriving DecidableEq

def floorLine (w h d : ℚ) (fc : ℕ) (i : ℕ) : Line3 :=
  ⟨⟨-w + i * (2 * w / fc), -h, 0⟩, ⟨-w + i * (2 * w / fc), -h, -d⟩⟩

def ceilLine (w h d : ℚ) (fc : ℕ) (i : ℕ) : Line3 :=
  ⟨⟨-w + i * (2 * w / fc), h, 0⟩, ⟨-w + i * (2 * w / fc), h, -d⟩⟩

def leftLine (w h d : ℚ) (wr : ℕ) (i : ℕ) : Line3 :=
  ⟨⟨-w, -h + i * (2 * h / wr), 0⟩, ⟨-w, -h + i * (2 * h / wr), -d⟩⟩

def rightLine (w h d : ℚ) (wr : ℕ) (i : ℕ) : Line3 :=
  ⟨⟨w, -h + i * (2 * h / wr), 0⟩, ⟨w, -h + i * (2 * h / wr), -d⟩⟩

/-- The full vertex list of `createSegment`, in push order: floor/ceiling
longitudinals, wall longitudinals, then the four rings. -/
def segmentLines (w h d : ℚ) (fc wr : ℕ) : List Line3 :=
  ((List.range (fc + 1)).flatMap (fun i =>
      [floorLine w h d fc i, ceilLine w h d fc i]) ++
    (List.range' 1 (wr - 1)).flatMap (fun i =>
      [leftLine w h d wr i, rightLine w h d wr i])) ++
  [⟨⟨-w, -h, 0⟩, ⟨w, -h, 0⟩⟩, ⟨⟨-w, h, 0⟩, ⟨w, h, 0⟩⟩,
    ⟨⟨-w, -h, 0⟩, ⟨-w, h, 0⟩⟩, ⟨⟨w, -h, 0⟩, ⟨w, h, 0⟩⟩]

/-- A longitudinal floor line: on the `y = -h` plane, spanning `z = 0` to
`z = -d` at constant `x`. -/
def isFloorLong (h d : ℚ) (s : Line3) : Bool :=
  decide (s.a.y = -h ∧ s.b.y = -h ∧ s.a.x = s.b.x ∧ s.a.z = 0 ∧ s.b.z = -d)

/-- A longitudinal ceiling line (`y = h` plane). -/
def isCeilLong (h d : ℚ) (s : Line3) : Bool :=
  decide (s.a.y = h ∧ s.b.y = h ∧ s.a.x = s.b.x ∧ s.a.z = 0 ∧ s.b.z = -d)

/-- A longitudinal left-wall line: on `x = -w`, at a height strictly between
floor and ceiling. -/
def isLeftLong (w h d : ℚ) (s : Line3) : Bool :=
  decide (s.a.x = -w ∧ s.b.x = -w ∧ -h < s.a.y ∧ s.a.y < h ∧ s.a.y = s.b.y ∧
    s.a.z = 0 ∧ s.b.z = -d)

/-- A longitudinal right-wall line (`x = w`). -/
def isRightLong (w h d : ℚ) (s : Line3) : Bool :=
  decide (s.a.x = w ∧ s.b.x = w ∧ -h < s.a.y ∧ s.a.y < h ∧ s.a.y = s.b.y ∧
    s.a.z = 0 ∧ s.b.z = -d)

/-- A latitudinal ring line at the segment's near face (`z = 0` at both ends). -/
def isRing (s : Line3) : Bool :=
  decide (s.a.z = 0 ∧ s.b.z = 0)

theorem filter_pairs_left {α β : Type} (p : β → Bool) (f g : α → β) :
    ∀ l : List α, (∀ a ∈ l, p (f a) = true) → (∀ a ∈ l, p (g a) = false) →
      (l.flatMap (fun a => [f a, g a])).filter p = l.map f := by
  intro l
  induction l with
  | nil => intro _ _; rfl
  | cons a l ih =>
    intro hf hg
    rw [List.flatMap_cons, List.filter_append,
      ih (fun x hx => hf x (List.mem_cons_of_mem a hx))
        (fun x hx => hg x (List.mem_cons_of_mem a hx))]
    have h1 : p (f a) = true := hf a (List.mem_cons_self a l)
    have h2 : p (g a) = false := hg a (List.mem_cons_self a l)
    simp [List.filter_cons, h1, h2]

theorem filter_pairs_right {α β : Type} (p : β → Bool) (f g : α → β) :
    ∀ l : List α, (∀ a ∈ l, p (f a) = false) → (∀ a ∈ l, p (g a) = true) →
      (l.flatMap (fun a => [f a, g a])).filter p = l.map g := by
  intro l
  induction l with
  | nil => intro _ _; rfl
  | cons a l ih =>
    intro hf hg
    rw [List.flatMap_cons, List.filter_append,
      ih (fun x hx => hf x (List.mem_cons_of_mem a hx))
        (fun x hx => hg x (List.mem_cons_of_mem a hx))]
    have h1 : p (f a) = false := hf a (List.mem_cons_self a l)
    have h2 : p (g a) = true := hg a (List.mem_cons_self a l)
    simp [List.filter_cons, h1, h2]

theorem filter_pairs_none {α β : Type} (p : β → Bool) (f g : α → β) :
    ∀ l : List α, (∀ a ∈ l, p (f a) = false) → (∀ a ∈ l, p (g a) = false) →
      (l.flatMap (fun a => [f a, g a])).filter p = [] := by
  intro l
  induction l with
  | nil => intro _ _; rfl
  | cons a l ih =>
    intro hf hg
    rw [List.flatMap_cons, List.filter_append,
      ih (fun x hx => hf x (List.mem_cons_of_mem a hx))
        (fun x hx => hg x (List.mem_cons_of_mem a hx))]
    have h1 : p (f a) = false := hf a (List.mem_cons_self a l)
    have h2 : p (g a) = false := hg a (List.mem_cons_self a l)
    simp [List.filter_cons, h1, h2]

theorem mem_range'_bounds {i wr : ℕ} (hi : i ∈ List.range' 1 (wr - 1))
    (hwr : 0 < wr) : 1 ≤ i ∧ i < wr := by
  rw [List.mem_range'] at hi
  obtain ⟨t, ht, rfl⟩ := hi
  omega

/-- The strictly-interior wall height `-h + i * (2h/wr)` for `1 ≤ i < wr`. -/
theorem wall_y_bounds {h : ℚ} {i wr : ℕ} (hh : 0 < h) (hwr : 0 < wr)
    (h1 : 1 ≤ i) (h2 : i < wr) :
    -h < -h + (i : ℚ) * (2 * h / wr) ∧ -h + (i : ℚ) * (2 * h / wr) < h := by
  have hwr' : (0 : ℚ) < wr := by exact_mod_cast hwr
  have hi1 : (1 : ℚ) ≤ (i : ℚ) := by exact_mod_cast h1
  have hi2 : (i : ℚ) < wr := by exact_mod_cast h2
  have hpos : 0 < 2 * h / (wr : ℚ) := by positivity
  constructor
  · nlinarith
  · have : (i : ℚ) * (2 * h / wr) < (wr : ℚ) * (2 * h / wr) := by
      apply mul_lt_mul_of_pos_right hi2 hpos
    have hcancel : (wr : ℚ) * (2 * h / wr) = 2 * h := by
      field_simp
    nlinarith

/-- **C9**: the Geometry Builder deterministically produces exactly
`floorCols + 1` longitudinal floor lines and the same count of ceiling lines
at `x = -w + i*(2w/floorCols)` for `i ∈ [0, floorCols]`, each spanning
`z = 0` to `z = -d`; exactly `wallRows - 1` longitudinal lines on each side
wall at heights strictly between floor and ceiling for `i ∈ [1, wallRows-1]`;
and exactly four latitudinal ring lines at `z = 0`, one per face, spanning
the full width or height. -/
theorem segmentLines_spec (w h d : ℚ) (fc wr : ℕ)
    (hw : 0 < w) (hh : 0 < h) (hd : 0 < d) (hwr : 0 < wr) :
    (segmentLines w h d fc wr).filter (isFloorLong h d) =
        (List.range (fc + 1)).map (floorLine w h d fc) ∧
      (segmentLines w h d fc wr).filter (isCeilLong h d) =
        (List.range (fc + 1)).map (ceilLine w h d fc) ∧
      (segmentLines w h d fc wr).filter (isLeftLong w h d) =
        (List.range' 1 (wr - 1)).map (leftLine w h d wr) ∧
      (segmentLines w h d fc wr).filter (isRightLong w h d) =
        (List.range' 1 (wr - 1)).map (rightLine w h d wr) ∧
      (segmentLines w h d fc wr).filter isRing =
        [⟨⟨-w, -h, 0⟩, ⟨w, -h, 0⟩⟩, ⟨⟨-w, h, 0⟩, ⟨w, h, 0⟩⟩,
          ⟨⟨-w, -h, 0⟩, ⟨-w, h, 0⟩⟩, ⟨⟨w, -h, 0⟩, ⟨w, h, 0⟩⟩] ∧
      ((List.range (fc + 1)).map (floorLine w h d fc)).length = fc + 1 ∧
      ((List.range' 1 (wr - 1)).map (leftLine w h d wr)).length = wr - 1 := by
  have hne : h ≠ -h := by
    intro hcon
    linarith
  have hne' : -h ≠ h := by
    intro hcon
    linarith
  have hwne : (w : ℚ) ≠ -w := by
    intro hcon
    linarith
  have hwne' : (-w : ℚ) ≠ w := by
    intro hcon
    linarith
  have hdne : (0 : ℚ) ≠ -d := by
    intro hcon
    linarith
  refine ⟨?_, ?_, ?_, ?_, ?_, by simp, by simp⟩
  · -- floor filter
    rw [segmentLines, List.filter_append, List.filter_append]
    rw [filter_pairs_left (isFloorLong h d) _ _ (List.range (fc + 1))
      (fun i _ => by simp [isFloorLong, floorLine])
      (fun i _ => by simp [isFloorLong, ceilLine, hne])]
    rw [filter_pairs_none (isFloorLong h d) _ _ (List.range' 1 (wr - 1))
      (fun i hi => by
        obtain ⟨h1, h2⟩ := mem_range'_bounds hi hwr
        obtain ⟨hy1, _⟩ := wall_y_bounds hh hwr h1 h2
        simp only [isFloorLong, leftLine, decide_eq_false_iff_not]
        rintro ⟨hya, -⟩
        linarith)
      (fun i hi => by
        obtain ⟨h1, h2⟩ := mem_range'_bounds hi hwr
        obtain ⟨hy1, _⟩ := wall_y_bounds hh hwr h1 h2
        simp only [isFloorLong, rightLine, decide_eq_false_iff_not]
        rintro ⟨hya, -⟩
        linarith)]
    simp [List.filter_cons, isFloorLong, hne, hdne, hwne']
  · -- ceiling filter
    rw [segmentLines, List.filter_append, List.filter_append]
    rw [filter_pairs_right (isCeilLong h d) _ _ (List.range (fc + 1))
      (fun i _ => by simp [isCeilLong, floorLine, hne'])
      (fun i _ => by simp [isCeilLong, ceilLine])]
    rw [filter_pairs_none (isCeilLong h d) _ _ (List.range' 1 (wr - 1))
      (fun i hi => by
        obtain ⟨h1, h2⟩ := mem_range'_bounds hi hwr
        obtain ⟨_, hy2⟩ := wall_y_bounds hh hwr h1 h2
        simp only [isCeilLong, leftLine, decide_eq_false_iff_not]
        rintro ⟨hya, -⟩
        linarith)
      (fun i hi => by
        obtain ⟨h1, h2⟩ := mem_range'_bounds hi hwr
        obtain ⟨_, hy2⟩ := wall_y_bounds hh hwr h1 h2
        simp only [isCeilLong, rightLine, decide_eq_false_iff_not]
        rintro ⟨hya, -⟩
        linarith)]
    simp [List.filter_cons, isCeilLong, hne', hdne, hwne']
  · -- left wall filter
    rw [segmentLines, List.filter_append, List.filter_append]
    rw [filter_pairs_none (isLeftLong w h d) _ _ (List.range (fc + 1))
      (fun i _ => by
        simp only [isLeftLong, floorLine, decide_eq_false_iff_not]
        rintro ⟨-, -, hy, -⟩
        linarith)
      (fun i _ => by
        simp only [isLeftLong, ceilLine, decide_eq_false_iff_not]
        rintro ⟨-, -, -, hy, -⟩
        linarith)]
    rw [filter_pairs_left (isLeftLong w h d) _ _ (List.range' 1 (wr - 1))
      (fun i hi => by
        obtain ⟨h1, h2⟩ := mem_range'_bounds hi hwr
        obtain ⟨hy1, hy2⟩ := wall_y_bounds hh hwr h1 h2
        simp [isLeftLong, leftLine, hy1, hy2])
      (fun i hi => by
        simp only [isLeftLong, rightLine, decide_eq_false_iff_not]
        rintro ⟨hx, -⟩
        exact hwne hx)]
    simp only [isLeftLong, List.filter_cons]
    simp [hwne', hwne, hdne]
  · -- right wall filter
    rw [segmentLines, List.filter_append, List.filter_append]
    rw [filter_pairs_none (isRightLong w h d) _ _ (List.range (fc + 1))
      (fun i _ => by
        simp only [isRightLong, floorLine, decide_eq_false_iff_not]
        rintro ⟨-, -, hy, -⟩
        linarith)
      (fun i _ => by
        simp only [isRightLong, ceilLine, decide_eq_false_iff_not]
        rintro ⟨-, -, -, hy, -⟩
        linarith)]
    rw [filter_pairs_right (isRightLong w h d) _ _ (List.range' 1 (wr - 1))
      (fun i hi => by
        simp only [isRightLong, leftLine, decide_eq_false_iff_not]
        rintro ⟨hx, -⟩
        exact hwne' hx)
      (fun i hi => by
        obtain ⟨h1, h2⟩ := mem_range'_bounds hi hwr
        obtain ⟨hy1, hy2⟩ := wall_y_bounds hh hwr h1 h2
        simp [isRightLong, rightLine, hy1, hy2])]
    simp only [isRightLong, List.filter_cons]
    simp [hwne', hwne, hdne]
  · -- ring filter
    rw [segmentLines, List.filter_append, List.filter_append]
    rw [filter_pairs_none isRing _ _ (List.range (fc + 1))
      (fun i _ => by simp [isRing, floorLine, Ne.symm hdne])
      (fun i _ => by simp [isRing, ceilLine, Ne.symm hdne])]
    rw [filter_pairs_none isRing _ _ (List.range' 1 (wr - 1))
      (fun i _ => by simp [isRing, leftLine, Ne.symm hdne])
      (fun i _ => by simp [isRing, rightLine, Ne.symm hdne])]
    simp [List.filter_cons, isRing]

/-- Witness for `segmentLines_spec` at the source dimensions `w = 12, h = 8,
d = 6, floorCols = 6, wallRows = 4`: 7 floor lines and 3 left-wall lines. -/
theorem segmentLines_spec_witness :
    ((segmentLines 12 8 6 6 4).filter (isFloorLong 8 6)).length = 7 ∧
      ((segmentLines 12 8 6 6 4).filter (isLeftLong 12 8 6)).length = 3 := by
  obtain ⟨h1, _, h3, _, _, h6, h7⟩ :=
    segmentLines_spec 12 8 6 6 4 (by norm_num) (by norm_num) (by norm_num) (by norm_num)
  constructor
  · rw [h1, h6]
  · rw [h3, h7]

/-! ### Recycling resource lifecycle (Hero.tsx lines 109-128, 236-247, 257-268)

A recycling event on a segment collects every child named `slab_image`,
removes each from the group and disposes its geometry, its texture map if
present, and its material, and only then calls `populateImages`, which
allocates fresh slabs (geometry + material per slab, texture once the load
resolves). -/

/-- Allocate one slab's resources in source order: `new PlaneGeometry`,
`new MeshBasicMaterial`, then the texture when the image load resolves
(`loaded` records whether it does). -/
def allocSlab (loaded : Bool) (st : ResState) : SlabRes × ResState :=
  let g := alloc st
  let m := alloc g.2
  if loaded then
    let t := alloc m.2
    (⟨g.1, m.1, some t.1⟩, t.2)
  else
    (⟨g.1, m.1, none⟩, m.2)

/-- `populateImages`: allocate one slab per placed cell (`loads` lists the
placed slabs and whether each image load resolves). -/
def allocSlabs : List Bool → ResState → List SlabRes × ResState
  | [], st => ([], st)
  | b :: bs, st =>
    let p := allocSlab b st
    let q := allocSlabs bs p.2
    (p.1 :: q.1, q.2)

/-- `c.geometry.dispose(); if (c.material.map) c.material.map.dispose();
c.material.dispose()`. -/
def disposeSlab (s : SlabRes) (st : ResState) : ResState :=
  let st1 := dispose s.geom st
  let st2 := match s.tex with
    | some t => dispose t st1
    | none => st1
  dispose s.mat st2

/-- The resource ids owned by one slab. -/
def slabIds (s : SlabRes) : List ℕ :=
  s.geom :: s.mat :: (match s.tex with | some t => [t] | none => [])

/-- The resource ids of all slabs attached to one segment. -/
def segIds (l : List SlabRes) : List ℕ := l.flatMap slabIds

/-- The resource ids of all slabs attached to the pool's segments. -/
def poolIds (p : List (List SlabRes)) : List ℕ := p.flatMap segIds

/-- The cleanup pass of one recycling event: dispose every slab of the
segment. -/
def disposeSeg (l : List SlabRes) (st : ResState) : ResState :=
  l.foldl (fun st s => disposeSlab s st) st

/-- One recycling event on segment `j`: full cleanup first, then
repopulation. -/
def recycleSeg (j : ℕ) (loads : List Bool) (segs : List (List SlabRes))
    (st : ResState) : List (List SlabRes) × ResState :=
  let st1 := disposeSeg (segs.getD j []) st
  let q := allocSlabs loads st1
  (segs.set j q.1, q.2)

/-- A sequence of recycling events applied to the pool. -/
def applyEvents : List (ℕ × List Bool) → List (List SlabRes) × ResState →
    List (List SlabRes) × ResState
  | [], w => w
  | e :: es, w => applyEvents es (recycleSeg e.1 e.2 w.1 w.2)

/-- The no-leak invariant: attached slab resource ids are pairwise distinct,
all below the allocator's high-water mark, and the live resource set is
exactly the attached ids. -/
def PoolInv (segs : List (List SlabRes)) (st : ResState) : Prop :=
  (poolIds segs).Nodup ∧ (∀ i ∈ poolIds segs, i < st.next) ∧
    st.live = (poolIds segs).toFinset

theorem disposeSlab_live (s : SlabRes) (st : ResState) :
    (disposeSlab s st).live = st.live \ (slabIds s).toFinset ∧
      (disposeSlab s st).next = st.next := by
  cases s with
  | mk g m t =>
    cases t with
    | none =>
      constructor
      · refine Finset.ext fun i => ?_
        simp [disposeSlab, dispose, slabIds]
        tauto
      · rfl
    | some tx =>
      constructor
      · refine Finset.ext fun i => ?_
        simp [disposeSlab, dispose, slabIds]
        tauto
      · rfl

theorem disposeSeg_spec (l : List SlabRes) : ∀ st : ResState,
    (disposeSeg l st).live = st.live \ (segIds l).toFinset ∧
      (disposeSeg l st).next = st.next := by
  induction l with
  | nil =>
    intro st
    constructor
    · simp [disposeSeg, segIds]
    · rfl
  | cons s l ih =>
    intro st
    have hstep := disposeSlab_live s st
    have hrest := ih (disposeSlab s st)
    constructor
    · rw [show disposeSeg (s :: l) st = disposeSeg l (disposeSlab s st) from rfl,
        hrest.1, hstep.1]
      refine Finset.ext fun i => ?_
      simp [segIds, List.flatMap_cons]
      tauto
    · rw [show disposeSeg (s :: l) st = disposeSeg l (disposeSlab s st) from rfl,
        hrest.2, hstep.2]

theorem allocSlab_spec (b : Bool) (st : ResState) :
    st.next ≤ (allocSlab b st).2.next ∧
      (allocSlab b st).2.live = st.live ∪ (slabIds (allocSlab b st).1).toFinset ∧
      (slabIds (allocSlab b st).1).Nodup ∧
      (∀ i ∈ slabIds (allocSlab b st).1, st.next ≤ i ∧ i < (allocSlab b st).2.next) := by
  cases b with
  | false =>
    refine ⟨?_, ?_, ?_, ?_⟩
    · simp [allocSlab, alloc]
      all_goals omega
    · refine Finset.ext fun i => ?_
      simp [allocSlab, alloc, slabIds]
      tauto
    · simp [allocSlab, alloc, slabIds]
    · intro i hi
      simp [allocSlab, alloc, slabIds] at hi
      rcases hi with rfl | rfl <;> simp [allocSlab, alloc] <;> omega
  | true =>
    refine ⟨?_, ?_, ?_, ?_⟩
    · simp [allocSlab, alloc]
      all_goals omega
    · refine Finset.ext fun i => ?_
      simp [allocSlab, alloc, slabIds]
      all_goals tauto
    · simp [allocSlab, alloc, slabIds]
      all_goals omega
    · intro i hi
      simp [allocSlab, alloc, slabIds] at hi
      rcases hi with rfl | rfl | rfl <;> simp [allocSlab, alloc] <;> omega

theorem allocSlabs_spec (bs : List Bool) : ∀ st : ResState,
    st.next ≤ (allocSlabs bs st).2.next ∧
      (allocSlabs bs st).2.live = st.live ∪ (segIds (allocSlabs bs st).1).toFinset ∧
      (segIds (allocSlabs bs st).1).Nodup ∧
      (∀ i ∈ segIds (allocSlabs bs st).1, st.next ≤ i ∧ i < (allocSlabs bs st).2.next) := by
  induction bs with
  | nil =>
    intro st
    refine ⟨le_rfl, ?_, ?_, ?_⟩
    · simp [allocSlabs, segIds]
    · simp [allocSlabs, segIds]
    · simp [allocSlabs, segIds]
  | cons b bs ih =>
    intro st
    obtain ⟨h1, h2, h3, h4⟩ := allocSlab_spec b st
    obtain ⟨g1, g2, g3, g4⟩ := ih (allocSlab b st).2
    have hun : allocSlabs (b :: bs) st =
        ((allocSlab b st).1 :: (allocSlabs bs (allocSlab b st).2).1,
          (allocSlabs bs (allocSlab b st).2).2) := rfl
    rw [hun]
    have hsegIds : segIds ((allocSlab b st).1 :: (allocSlabs bs (allocSlab b st).2).1) =
        slabIds (allocSlab b st).1 ++ segIds (allocSlabs bs (allocSlab b st).2).1 := by
      simp [segIds, List.flatMap_cons]
    refine ⟨le_trans h1 g1, ?_, ?_, ?_⟩
    · rw [hsegIds, g2, h2]
      refine Finset.ext fun i => ?_
      simp
    · rw [hsegIds, List.nodup_append]
      refine ⟨h3, g3, ?_⟩
      intro a ha hb
      have hlt := (h4 a ha).2
      have hge := (g4 a hb).1
      omega
    · rw [hsegIds]
      intro i hi
      rcases List.mem_append.mp hi with hi | hi
      · obtain ⟨ha, hb⟩ := h4 i hi
        exact ⟨ha, lt_of_lt_of_le hb g1⟩
      · obtain ⟨ha, hb⟩ := g4 i hi
        exact ⟨le_trans h1 ha, hb⟩

/-- Index decomposition of `List.set` and `List.getD`. -/
theorem set_decomp {α : Type} (j : ℕ) : ∀ (l : List α) (v dflt : α), j < l.length →
    ∃ pre old post, l = pre ++ [old] ++ post ∧ l.set j v = pre ++ [v] ++ post ∧
      l.getD j dflt = old := by
  induction j with
  | zero =>
    intro l v dflt hl
    cases l with
    | nil => cases hl
    | cons x rest => exact ⟨[], x, rest, rfl, rfl, rfl⟩
  | succ j ih =>
    intro l v dflt hl
    cases l with
    | nil => cases hl
    | cons x rest =>
      obtain ⟨pre, old, post, hdec, hset, hget⟩ :=
        ih rest v dflt (by simpa using hl)
      refine ⟨x :: pre, old, post, ?_, ?_, ?_⟩
      · rw [List.cons_append, List.cons_append, ← hdec]
      · rw [List.set_cons_succ, List.cons_append, List.cons_append, ← hset]
      · simpa using hget

theorem poolIds_append (p q : List (List SlabRes)) :
    poolIds (p ++ q) = poolIds p ++ poolIds q := by
  simp [poolIds]

/-- One recycling event preserves the no-leak invariant and the pool size. -/
theorem recycleSeg_inv (j : ℕ) (loads : List Bool) (segs : List (List SlabRes))
    (st : ResState) (h : PoolInv segs st) (hj : j < segs.length) :
    PoolInv (recycleSeg j loads segs st).1 (recycleSeg j loads segs st).2 ∧
      (recycleSeg j loads segs st).1.length = segs.length := by
  obtain ⟨hnd, hbound, hlive⟩ := h
  obtain ⟨pre, old, post, hdec, hset, hget⟩ :=
    set_decomp j segs (allocSlabs loads (disposeSeg (segs.getD j []) st)).1 [] hj
  obtain ⟨hd1, hd2⟩ := disposeSeg_spec (segs.getD j []) st
  obtain ⟨ha1, ha2, ha3, ha4⟩ := allocSlabs_spec loads (disposeSeg (segs.getD j []) st)
  rw [hget] at hd1 hd2 ha1 ha2 ha3 ha4 hset
  have hfst : (recycleSeg j loads segs st).1 =
      pre ++ [(allocSlabs loads (disposeSeg old st)).1] ++ post := by
    show segs.set j (allocSlabs loads (disposeSeg (segs.getD j []) st)).1 = _
    rw [hget]
    exact hset
  have hsnd : (recycleSeg j loads segs st).2 =
      (allocSlabs loads (disposeSeg old st)).2 := by
    show (allocSlabs loads (disposeSeg (segs.getD j []) st)).2 = _
    rw [hget]
  have hidsOld : poolIds segs = poolIds pre ++ (segIds old ++ poolIds post) := by
    rw [hdec, poolIds_append, poolIds_append]
    simp [poolIds]
  have hidsNew : poolIds (recycleSeg j loads segs st).1 =
      poolIds pre ++
        (segIds (allocSlabs loads (disposeSeg old st)).1 ++ poolIds post) := by
    rw [hfst, poolIds_append, poolIds_append]
    simp [poolIds]
  rw [hidsOld, List.nodup_append] at hnd
  obtain ⟨hndP, hndOQ, hdisjP⟩ := hnd
  rw [List.nodup_append] at hndOQ
  obtain ⟨hndO, hndQ, hdisjOQ⟩ := hndOQ
  have hfresh : ∀ i ∈ segIds (allocSlabs loads (disposeSeg old st)).1, st.next ≤ i := by
    intro i hi
    have := (ha4 i hi).1
    rw [hd2] at this
    exact this
  constructor
  · refine ⟨?_, ?_, ?_⟩
    · rw [hidsNew, List.nodup_append]
      refine ⟨hndP, ?_, ?_⟩
      · rw [List.nodup_append]
        refine ⟨ha3, hndQ, ?_⟩
        intro a ha hb
        have h1 := hfresh a ha
        have h2 := hbound a (by rw [hidsOld]; simp [hb])
        omega
      · intro a ha hb
        rcases List.mem_append.mp hb with hb | hb
        · have h1 := hfresh a hb
          have h2 := hbound a (by rw [hidsOld]; simp [ha])
          omega
        · exact hdisjP ha (List.mem_append.mpr (Or.inr hb))
    · intro i hi
      rw [hidsNew] at hi
      rw [hsnd]
      rcases List.mem_append.mp hi with hi | hi
      · have h2 := hbound i (by rw [hidsOld]; simp [hi])
        have h3 : st.next ≤ (allocSlabs loads (disposeSeg old st)).2.next := by
          rw [← hd2]
          exact ha1
        omega
      · rcases List.mem_append.mp hi with hi | hi
        · exact (ha4 i hi).2
        · have h2 := hbound i (by rw [hidsOld]; simp [hi])
          have h3 : st.next ≤ (allocSlabs loads (disposeSeg old st)).2.next := by
            rw [← hd2]
            exact ha1
          omega
    · rw [hsnd, hidsNew, ha2, hd1, hlive, hidsOld]
      have hOP : ∀ i ∈ segIds old, i ∉ poolIds pre := by
        intro i hi hP
        exact hdisjP hP (List.mem_append.mpr (Or.inl hi))
      have hOQ : ∀ i ∈ segIds old, i ∉ poolIds post := by
        intro i hi hQ
        exact hdisjOQ hi hQ
      refine Finset.ext fun i => ?_
      simp only [Finset.mem_union, Finset.mem_sdiff, List.mem_toFinset,
        List.mem_append]
      constructor
      · rintro (⟨h1 | h1 | h1, h2⟩ | h1)
        · exact Or.inl h1
        · exact absurd h1 h2
        · exact Or.inr (Or.inr h1)
        · exact Or.inr (Or.inl h1)
      · rintro (h1 | h1 | h1)
        · exact Or.inl ⟨Or.inl h1, fun hO => hOP i hO h1⟩
        · exact Or.inr h1
        · exact Or.inl ⟨Or.inr (Or.inr h1), fun hO => hOQ i hO h1⟩
  · rw [hfst, hdec]
    simp

/-- **C2**: every recycling event first fully releases the recycled segment's
slab resources — its geometry, its texture if present, and its material are
all gone from the live set before Content Placement allocates anything — and
after any sequence of recycling events on valid segment indices, the live
slab resources are exactly the ids attached to the currently-populated
segments. -/
theorem recycle_no_leak (events : List (ℕ × List Bool))
    (segs : List (List SlabRes)) (st : ResState) (h : PoolInv segs st)
    (hvalid : ∀ e ∈ events, e.1 < segs.length) :
    (∀ j : ℕ, ∀ i ∈ segIds (segs.getD j []), i ∉ (disposeSeg (segs.getD j []) st).live) ∧
      PoolInv (applyEvents events (segs, st)).1 (applyEvents events (segs, st)).2 := by
  constructor
  · intro j i hi hlive
    have := (disposeSeg_spec (segs.getD j []) st).1
    rw [this] at hlive
    rw [Finset.mem_sdiff] at hlive
    exact hlive.2 (List.mem_toFinset.mpr hi)
  · induction events generalizing segs st with
    | nil => exact h
    | cons e es ih =>
      obtain ⟨hinv, hlen⟩ := recycleSeg_inv e.1 e.2 segs st h
        (hvalid e (List.mem_cons_self e es))
      have hval' : ∀ x ∈ es, x.1 < (recycleSeg e.1 e.2 segs st).1.length := by
        intro x hx
        rw [hlen]
        exact hvalid x (List.mem_cons_of_mem e hx)
      exact ih _ _ hinv hval'

/-- Witness for `recycle_no_leak`: a pool of two segments (one slab with a
texture, one empty) under two recycling events. -/
theorem recycle_no_leak_witness :
    (PoolInv [[⟨0, 1, some 2⟩], []] ⟨3, {0, 1, 2}⟩ ∧
      (∀ e ∈ [(0, [true]), (1, [false])],
        e.1 < ([[⟨0, 1, some 2⟩], []] : List (List SlabRes)).length)) ∧
      PoolInv
        (applyEvents [(0, [true]), (1, [false])] ([[⟨0, 1, some 2⟩], []], ⟨3, {0, 1, 2}⟩)).1
        (applyEvents [(0, [true]), (1, [false])] ([[⟨0, 1, some 2⟩], []], ⟨3, {0, 1, 2}⟩)).2 := by
  have hinv : PoolInv [[⟨0, 1, some 2⟩], []] ⟨3, {0, 1, 2}⟩ := by
    refine ⟨by decide, by decide, by decide⟩
  have hval : ∀ e ∈ [(0, [true]), (1, [false])],
      e.1 < ([[⟨0, 1, some 2⟩], []] : List (List SlabRes)).length := by
    decide
  exact ⟨⟨hinv, hval⟩,
    (recycle_no_leak [(0, [true]), (1, [false])] [[⟨0, 1, some 2⟩], []]
      ⟨3, {0, 1, 2}⟩ hinv hval).2⟩

end Tunnel
